import Mathlib

/-!
FixedSet: a two-level (FKS) static hash set.

A shallow embedding of `src/fixed_set.h` and the properties proved about it.

Modelling conventions.

* `int64_t` values are integers (`Int`); every `int64_t` arithmetic result is
  passed through `wrapInt64` (two's complement wrap-around), and the C++
  remainder `%` on `int64_t` is the truncating `Int.tmod`.
* `size_t` / `uint64_t` values are natural numbers; arithmetic that the source
  performs in 64-bit unsigned arithmetic is reduced with `wrapUInt64`, and the
  conversion of an `int64_t` to `uint64_t` is `toUInt64`.
* `std::vector<T>` is `List T`; `std::optional<int64_t>` is `Option Int`.
  `v.size()` is `List.length`.
* Operations that are undefined in C++ (remainder by zero, indexing outside a
  vector) and the failing `assert` of the constructor are explicit outcomes of
  type `Fault`, so that "this never happens" is a statement about the model.
* The random engine of `GenerateHashWhilePredicate` is replaced by the sequence
  of values it hands out: a list of `Draw`s, each a pair produced by
  `a_gen(1, kBasicPrimeModulo - 1)` and `b_gen(0, kBasicPrimeModulo - 1)`.  A
  finite list is a finite prefix of that sequence; running past its end is the
  outcome `Fault.drawsExhausted` (the `do … while` loop is still running).
-/

namespace FixedSetModel

/-! ## Outcomes -/

/-- Reasons for which a run of the embedded code yields no value. -/
inductive Fault where
  /-- The right operand of a `%` was zero. -/
  | remainderByZero
  /-- A vector was indexed at a position not below its size. -/
  | indexOutOfBounds
  /-- The `assert(a != 0)` of the `HashFunction` constructor failed. -/
  | assertionFailed
  /-- The supplied prefix of random draws ended before the rejection loop
  accepted a candidate. -/
  | drawsExhausted
  deriving DecidableEq, Repr

/-! ## Machine integers -/

/-- Two's complement wrap-around of an integer into the `int64_t` range. -/
def wrapInt64 (z : Int) : Int :=
  (z + 9223372036854775808) % 18446744073709551616 - 9223372036854775808

/-- Wrap-around of a natural number into the `uint64_t` / `size_t` range. -/
def wrapUInt64 (n : Nat) : Nat :=
  n % 18446744073709551616

/-- Conversion of an `int64_t` value to `uint64_t`. -/
def toUInt64 (z : Int) : Nat :=
  (z % 18446744073709551616).toNat

/-- The range of the C++ type `int` (32-bit signed). -/
def IsInt32 (z : Int) : Prop :=
  -2147483648 ≤ z ∧ z ≤ 2147483647

instance (z : Int) : Decidable (IsInt32 z) := by
  unfold IsInt32; infer_instance

/-- The expression `x % n` for `x : int64_t` and `n : size_t`: the left operand
is converted to `uint64_t`; a zero right operand is undefined. -/
def remSize (x : Int) (n : Nat) : Except Fault Nat :=
  if n = 0 then .error .remainderByZero else .ok (toUInt64 x % n)

/-- Read access `v[i]` of a vector. -/
def vecGet {α : Type} (v : List α) (i : Nat) : Except Fault α :=
  match v[i]? with
  | some x => .ok x
  | none => .error .indexOutOfBounds

/-- Write access `v[i] = x` of a vector. -/
def vecSet {α : Type} (v : List α) (i : Nat) (x : α) : Except Fault (List α) :=
  if i < v.length then .ok (v.set i x) else .error .indexOutOfBounds

/-! ## Constants (lines 23-24) -/

/-- The constant `kBasicPrimeModulo`. -/
def kBasicPrimeModulo : Int := 2000000009

/-- The constant `kBasicRehashConstant`. -/
def kBasicRehashConstant : Int := 4

/-! ## `SumOfSquares` (lines 26-32) -/

/-- The loop of `SumOfSquares`: `res += el * el` with `el * el` computed in
`int64_t` and accumulated in `uint64_t`. -/
def SumOfSquares.loop : List Int → Nat → Nat
  | [], res => res
  | el :: rest, res =>
    SumOfSquares.loop rest (wrapUInt64 (res + toUInt64 (wrapInt64 (el * el))))

/-- The function `SumOfSquares`. -/
def SumOfSquares (vec : List Int) : Nat :=
  SumOfSquares.loop vec 0

/-! ## `HashFunction` (lines 35-53) -/

/-- The class `HashFunction`: the fields `prime_modulo`, `a`, `b`. -/
structure HashFunction where
  prime_modulo : Int
  a : Int
  b : Int
  deriving DecidableEq, Repr

namespace HashFunction

/-- The default constructor `HashFunction()`. -/
def default : HashFunction :=
  { prime_modulo := kBasicPrimeModulo, a := 1, b := 1 }

/-- The constructor `HashFunction(a, b, prime)` with its `assert(a != 0)`. -/
def new (a b prime : Int) : Except Fault HashFunction :=
  if a = 0 then .error .assertionFailed
  else .ok { prime_modulo := prime, a := a, b := b }

/-- The call operator `operator()(num)`:
`res = (a * num + b) % prime_modulo; return res >= 0 ? res : res + prime_modulo`. -/
def call (h : HashFunction) (num : Int) : Int :=
  let res := Int.tmod (wrapInt64 (wrapInt64 (h.a * num) + h.b)) h.prime_modulo
  if res ≥ 0 then res else wrapInt64 (res + h.prime_modulo)

end HashFunction

/-! ## `IfHasCollisions` (lines 55-67) -/

/-- The loop of `IfHasCollisions` over the remaining keys, with the current
contents of `if_present_table`. -/
def IfHasCollisions.loop (hash : HashFunction) (table_size : Nat) :
    List Int → List Int → Except Fault Bool
  | [], _ => .ok false
  | elem :: rest, if_present_table => do
    let i ← remSize (hash.call elem) table_size
    let cur ← vecGet if_present_table i
    if cur > 0 then
      .ok true
    else
      let if_present_table ← vecSet if_present_table i (wrapInt64 (cur + 1))
      IfHasCollisions.loop hash table_size rest if_present_table

/-- The function `IfHasCollisions`. -/
def IfHasCollisions (hash : HashFunction) (data : List Int) (table_size : Nat) :
    Except Fault Bool :=
  IfHasCollisions.loop hash table_size data (List.replicate table_size 0)

/-! ## `BucketsDistribution` (lines 69-77) -/

/-- The loop of `BucketsDistribution` over the remaining keys, with the
current contents of `chains_lengths`. -/
def BucketsDistribution.loop (hash : HashFunction) (table_size : Nat) :
    List Int → List Int → Except Fault (List Int)
  | [], chains_lengths => .ok chains_lengths
  | elem :: rest, chains_lengths => do
    let i ← remSize (hash.call elem) table_size
    let cur ← vecGet chains_lengths i
    let chains_lengths ← vecSet chains_lengths i (wrapInt64 (cur + 1))
    BucketsDistribution.loop hash table_size rest chains_lengths

/-- The function `BucketsDistribution`. -/
def BucketsDistribution (hash : HashFunction) (array : List Int) (table_size : Nat) :
    Except Fault (List Int) :=
  BucketsDistribution.loop hash table_size array (List.replicate table_size 0)

/-! ## The two rehash predicates (lines 79-92) -/

/-- The type of a rehash predicate: `true` means "reject this hash". -/
abbrev Predicate := HashFunction → List Int → Nat → Except Fault Bool

/-- The predicate `lin_hashtable_rehash_predicate`: the product
`kBasicRehashConstant * data.size()` is computed in `uint64_t`. -/
def lin_hashtable_rehash_predicate : Predicate := fun hash data table_size => do
  let chains_lengths ← BucketsDistribution hash data table_size
  .ok (decide (SumOfSquares chains_lengths >
    wrapUInt64 (toUInt64 kBasicRehashConstant * data.length)))

/-- The predicate `top_sq_hashtable_rehash_predicate`. -/
def top_sq_hashtable_rehash_predicate : Predicate := fun hash array table_size =>
  IfHasCollisions hash array table_size

/-! ## `GenerateHashWhilePredicate` (lines 95-108) -/

/-- One iteration's worth of random values: the results of
`a_gen(generator)` and `b_gen(generator)`, within the bounds of the two
`uniform_int_distribution`s. -/
structure Draw where
  a : Int
  b : Int
  a_range : 1 ≤ a ∧ a ≤ kBasicPrimeModulo - 1
  b_range : 0 ≤ b ∧ b ≤ kBasicPrimeModulo - 1

/-- The function `GenerateHashWhilePredicate`: the `do … while` loop draws a
candidate, builds the hash and repeats while the predicate holds.  Returns the
accepted hash and the draws not consumed. -/
def GenerateHashWhilePredicate (data : List Int) (table_size : Nat) (pred : Predicate) :
    List Draw → Except Fault (HashFunction × List Draw)
  | [] => .error .drawsExhausted
  | d :: rest => do
    let hash ← HashFunction.new d.a d.b kBasicPrimeModulo
    if (← pred hash data table_size) then
      GenerateHashWhilePredicate data table_size pred rest
    else
      .ok (hash, rest)

/-! ## `HashTable` (lines 111-148) -/

/-- The class `HashTable`: the fields `table_` and `hash_`. -/
structure HashTable where
  table_ : List (Option Int)
  hash_ : HashFunction
  deriving DecidableEq, Repr

namespace HashTable

/-- The default constructor: an empty `table_` and a default `hash_`. -/
def default : HashTable :=
  { table_ := [], hash_ := HashFunction.default }

/-- The store loop of `Initialize` (lines 129-131):
`table_[hash_(i) % table_size] = i` for every key. -/
def fill.loop (hash : HashFunction) (table_size : Nat) :
    List Int → List (Option Int) → Except Fault (List (Option Int))
  | [], table => .ok table
  | i :: rest, table => do
    let slot ← remSize (hash.call i) table_size
    let table ← vecSet table slot (some i)
    fill.loop hash table_size rest table

/-- Lines 128-131 of `Initialize`: allocate `table_size` empty slots and store
every key at its slot. -/
def fill (hash : HashFunction) (data : List Int) (table_size : Nat) :
    Except Fault HashTable := do
  let table ← fill.loop hash table_size data (List.replicate table_size none)
  .ok { table_ := table, hash_ := hash }

/-- The method `HashTable::Initialize(data, table_size, pred)`; the last
argument and the second component of the result are the random draws before
and after the call. -/
def Initialize (data : List Int) (table_size : Nat) (pred : Predicate)
    (draws : List Draw) : Except Fault (HashTable × List Draw) :=
  if data.isEmpty then
    .ok ({ table_ := [], hash_ := HashFunction.default }, draws)
  else do
    let (hash, draws) ← GenerateHashWhilePredicate data table_size pred draws
    let t ← fill hash data table_size
    .ok (t, draws)

/-- The method `HashTable::Contains(value)`. -/
def Contains (t : HashTable) (value : Int) : Except Fault Bool :=
  if t.table_.isEmpty then
    .ok false
  else do
    let slot ← remSize (t.hash_.call value) t.table_.length
    let entry ← vecGet t.table_ slot
    .ok (decide (entry = some value))

end HashTable

/-! ## `FixedSet` (lines 151-200) -/

/-- The class `FixedSet`: the fields `top_tables_` and `base_hash_`. -/
structure FixedSet where
  top_tables_ : List HashTable
  base_hash_ : HashFunction
  deriving DecidableEq, Repr

namespace FixedSet

/-- The default constructor. -/
def default : FixedSet :=
  { top_tables_ := [], base_hash_ := HashFunction.default }

/-- The partition loop of `Initialize` (lines 173-175):
`base_table[base_hash_(elem) % sz].emplace_back(elem)`. -/
def partitionLoop (base_hash : HashFunction) (sz : Nat) :
    List Int → List (List Int) → Except Fault (List (List Int))
  | [], base_table => .ok base_table
  | elem :: rest, base_table => do
    let i ← remSize (base_hash.call elem) sz
    let bucket ← vecGet base_table i
    let base_table ← vecSet base_table i (bucket ++ [elem])
    partitionLoop base_hash sz rest base_table

/-- The bucket loop of `Initialize` (lines 179-184): one `HashTable` per
bucket, of size `bucket.size() * bucket.size()` (a `size_t` product), appended
to `top_tables_`. -/
def bucketLoop (pred : Predicate) :
    List (List Int) → List HashTable → List Draw → Except Fault (List HashTable × List Draw)
  | [], top_tables, draws => .ok (top_tables, draws)
  | bucket :: rest, top_tables, draws => do
    let (top_table, draws) ←
      HashTable.Initialize bucket (wrapUInt64 (bucket.length * bucket.length)) pred draws
    bucketLoop pred rest (top_tables ++ [top_table]) draws

/-- The body of `FixedSet::Initialize` with the two rehash predicates as
parameters. -/
def InitializeWith (base_pred top_pred : Predicate) (elements : List Int)
    (draws : List Draw) : Except Fault (FixedSet × List Draw) :=
  if elements.isEmpty then
    .ok ({ top_tables_ := [], base_hash_ := HashFunction.default }, draws)
  else do
    let sz := elements.length
    let elements_to_long := elements
    let (base_hash, draws) ←
      GenerateHashWhilePredicate elements_to_long sz base_pred draws
    let base_table ←
      partitionLoop base_hash sz elements_to_long (List.replicate sz [])
    let (top_tables, draws) ← bucketLoop top_pred base_table [] draws
    .ok ({ top_tables_ := top_tables, base_hash_ := base_hash }, draws)

/-- The method `FixedSet::Initialize(elements)`: the keys are of type `int`;
the last argument and the second component of the result are the random draws
before and after the call. -/
def Initialize (elements : List Int) (draws : List Draw) :
    Except Fault (FixedSet × List Draw) :=
  InitializeWith lin_hashtable_rehash_predicate top_sq_hashtable_rehash_predicate
    elements draws

/-- The method `FixedSet::Contains(value)`. -/
def Contains (s : FixedSet) (value : Int) : Except Fault Bool :=
  let val_long := value
  if s.top_tables_.isEmpty then
    .ok false
  else do
    let ind ← remSize (s.base_hash_.call val_long) s.top_tables_.length
    let to_search ← vecGet s.top_tables_ ind
    if to_search.table_.isEmpty then
      .ok false
    else
      to_search.Contains val_long

end FixedSet

/-! ## Specification-level notions used by the statements -/

/-- The slot `hash(x) % n` as a natural number (for `n ≠ 0`). -/
def slotOf (hash : HashFunction) (n : Nat) (x : Int) : Nat :=
  toUInt64 (hash.call x) % n

/-- The vector `v` has length `n` and holds `f i` at every position `i < n`. -/
def Tabulates {α : Type} (v : List α) (n : Nat) (f : Nat → α) : Prop :=
  v.length = n ∧ ∀ i, i < n → v[i]? = some (f i)

/-- The marks of `if_present_table` once the slots in `seen` have been hit. -/
def markOf (seen : List Nat) (i : Nat) : Int :=
  if i ∈ seen then 1 else 0

/-- The contents of the slots after the store loop has processed `data`,
starting from the contents `g`. -/
def fillFun (slot : Int → Nat) : List Int → (Nat → Option Int) → (Nat → Option Int)
  | [], g => g
  | x :: rest, g => fillFun slot rest (Function.update g (slot x) (some x))

/-- The hash built from a draw. -/
def Draw.toHash (d : Draw) : HashFunction :=
  { prime_modulo := kBasicPrimeModulo, a := d.a, b := d.b }

/-- The keys of `data` whose slot under `hash` modulo `n` is `i`, in input order. -/
def bucketOf (hash : HashFunction) (n : Nat) (data : List Int) (i : Nat) : List Int :=
  data.filter (fun k => decide (slotOf hash n k = i))

/-- The table `t` is a possible result of `HashTable::Initialize` on `bucket`
with the table size `bucket.size() * bucket.size()` and the predicate `pred`. -/
def BuiltFrom (pred : Predicate) (bucket : List Int) (t : HashTable) : Prop :=
  ∃ draws rest, HashTable.Initialize bucket (wrapUInt64 (bucket.length * bucket.length))
    pred draws = .ok (t, rest)

/-! ## A concrete run -/

/-- A concrete sequence of draws. -/
def sampleDraws : List Draw :=
  [⟨1, 0, by decide, by decide⟩, ⟨3, 1, by decide, by decide⟩,
   ⟨2, 5, by decide, by decide⟩, ⟨7, 7, by decide, by decide⟩]

/-- The state reached by `FixedSet.Initialize [5, 7, 11] sampleDraws`. -/
def sampleSet : FixedSet :=
  { top_tables_ :=
      [{ table_ := [], hash_ := { prime_modulo := 2000000009, a := 1, b := 1 } },
       { table_ := [some 7], hash_ := { prime_modulo := 2000000009, a := 3, b := 1 } },
       { table_ := [some 11, none, some 5, none],
         hash_ := { prime_modulo := 2000000009, a := 7, b := 7 } }],
    base_hash_ := { prime_modulo := 2000000009, a := 1, b := 0 } }

/-- The table `t` is perfect for the key list `data`: the slot map
`key ↦ hash(key) % capacity` is injective on the positions of `data`, every key
of `data` is stored in its own slot, and every occupied slot holds a key of
`data` whose slot it is. -/
def PerfectFor (t : HashTable) (data : List Int) : Prop :=
  (∀ (i j : Nat) (hi : i < data.length) (hj : j < data.length),
    slotOf t.hash_ t.table_.length data[i] = slotOf t.hash_ t.table_.length data[j] →
      i = j) ∧
  (∀ k ∈ data, t.table_[slotOf t.hash_ t.table_.length k]? = some (some k)) ∧
  (∀ (i : Nat) (v : Int), t.table_[i]? = some (some v) →
    v ∈ data ∧ slotOf t.hash_ t.table_.length v = i)

/-- The predicate that accepts every hash. -/
def acceptAll : Predicate := fun _ _ _ => .ok false

/-- The state reached by `FixedSet.InitializeWith acceptAll acceptAll [5, 7, 11]
sampleDraws`: in the last bucket the key `11` overwrote the key `5`. -/
def overwrittenSet : FixedSet :=
  { top_tables_ :=
      [{ table_ := [], hash_ := { prime_modulo := 2000000009, a := 1, b := 1 } },
       { table_ := [some 7], hash_ := { prime_modulo := 2000000009, a := 3, b := 1 } },
       { table_ := [none, none, none, some 11],
         hash_ := { prime_modulo := 2000000009, a := 2, b := 5 } }],
    base_hash_ := { prime_modulo := 2000000009, a := 1, b := 0 } }

/-- The state reached by `FixedSet.Initialize [11, 5, 7] sampleDraws.reverse`. -/
def permutedSet : FixedSet :=
  { top_tables_ :=
      [{ table_ := [some 5, none, some 11, none],
         hash_ := { prime_modulo := 2000000009, a := 3, b := 1 } },
       { table_ := [], hash_ := { prime_modulo := 2000000009, a := 1, b := 1 } },
       { table_ := [some 7], hash_ := { prime_modulo := 2000000009, a := 1, b := 0 } }],
    base_hash_ := { prime_modulo := 2000000009, a := 7, b := 7 } }

/-- The hash with multiplier 1 and offset 0. -/
def identityHash : HashFunction :=
  { prime_modulo := kBasicPrimeModulo, a := 1, b := 0 }

/-- A key list of 6,076,464,490 keys: the key `0` 3,037,000,000 times, the key
`1` 3,037,000,000 times and the key `2` 2,464,490 times. -/
def hugeData : List Int :=
  List.replicate 3037000000 0 ++ List.replicate 3037000000 1 ++ List.replicate 2464490 2

@[simp] theorem ok_bind {α β : Type} (a : α) (f : α → Except Fault β) :
    (Except.ok a >>= f) = f a := rfl

@[simp] theorem error_bind {α β : Type} (e : Fault) (f : α → Except Fault β) :
    ((Except.error e : Except Fault α) >>= f) = Except.error e := rfl

theorem remSize_pos (x : Int) {n : Nat} (hn : 0 < n) :
    remSize x n = .ok (toUInt64 x % n) := by
  unfold remSize
  rw [if_neg (Nat.pos_iff_ne_zero.mp hn)]

theorem remSize_zero (x : Int) : remSize x 0 = .error .remainderByZero := by
  simp [remSize]

theorem remSize_slotOf (hash : HashFunction) (x : Int) {n : Nat} (hn : 0 < n) :
    remSize (hash.call x) n = .ok (slotOf hash n x) :=
  remSize_pos _ hn

theorem slotOf_lt (hash : HashFunction) (x : Int) {n : Nat} (hn : 0 < n) :
    slotOf hash n x < n :=
  Nat.mod_lt _ hn

theorem Tabulates.get_ok {α : Type} {v : List α} {n : Nat} {f : Nat → α}
    (h : Tabulates v n f) {i : Nat} (hi : i < n) : vecGet v i = .ok (f i) := by
  unfold vecGet
  rw [h.2 i hi]

theorem Tabulates.set_ok {α : Type} {v : List α} {n : Nat} {f : Nat → α}
    (h : Tabulates v n f) {i : Nat} (hi : i < n) (x : α) :
    ∃ w, vecSet v i x = .ok w ∧ Tabulates w n (Function.update f i x) := by
  refine ⟨v.set i x, ?_, ?_, ?_⟩
  · unfold vecSet
    rw [if_pos (by rw [h.1]; exact hi)]
  · simpa using h.1
  · intro j hj
    by_cases hji : j = i
    · subst hji
      simp [List.getElem?_set, h.1, hj]
    · rw [List.getElem?_set_ne (Ne.symm hji), h.2 j hj, Function.update_noteq hji]

theorem tabulates_replicate {α : Type} (n : Nat) (a : α) :
    Tabulates (List.replicate n a) n (fun _ => a) := by
  refine ⟨by simp, ?_⟩
  intro i hi
  simp [List.getElem?_replicate, hi]

theorem Tabulates.congr {α : Type} {v : List α} {n : Nat} {f g : Nat → α}
    (h : Tabulates v n f) (hfg : ∀ i, i < n → f i = g i) : Tabulates v n g :=
  ⟨h.1, fun i hi => by rw [h.2 i hi, hfg i hi]⟩

theorem Tabulates.eq_map_range {α : Type} {v : List α} {n : Nat} {f : Nat → α}
    (h : Tabulates v n f) : v = (List.range n).map f := by
  apply List.ext_getElem?
  intro i
  by_cases hi : i < n
  · rw [h.2 i hi]
    simp [List.getElem?_map, List.getElem?_range hi]
  · have h1 : v[i]? = none := List.getElem?_eq_none (by rw [h.1]; omega)
    rw [h1]
    simp [List.getElem?_eq_none, not_lt.mp hi]

theorem wrapInt64_of_range {z : Int} (h0 : -9223372036854775808 ≤ z)
    (h1 : z < 9223372036854775808) : wrapInt64 z = z := by
  unfold wrapInt64
  rw [Int.emod_eq_of_lt (by omega) (by omega)]
  omega

/-! ### `IfHasCollisions` -/

theorem IfHasCollisions_loop_spec (hash : HashFunction) {n : Nat} (hn : 0 < n)
    (data : List Int) :
    ∀ (seen : List Nat) (tbl : List Int), Tabulates tbl n (markOf seen) →
      ∃ b, IfHasCollisions.loop hash n data tbl = .ok b ∧
        (b = false ↔ (∀ x ∈ data, slotOf hash n x ∉ seen) ∧
          (data.map (slotOf hash n)).Nodup) := by
  induction data with
  | nil => intro seen tbl _; exact ⟨false, by simp [IfHasCollisions.loop]⟩
  | cons x rest ih =>
    intro seen tbl htab
    have hlt := slotOf_lt hash x hn
    rw [IfHasCollisions.loop, remSize_slotOf hash x hn, ok_bind, htab.get_ok hlt, ok_bind]
    by_cases hmem : slotOf hash n x ∈ seen
    · exact ⟨true, by simp [markOf, hmem]⟩
    · obtain ⟨w, hw, hwtab⟩ := htab.set_ok hlt (wrapInt64 (markOf seen (slotOf hash n x) + 1))
      have hmark : markOf seen (slotOf hash n x) = 0 := by simp [markOf, hmem]
      rw [hw, ok_bind]
      rw [hmark] at hwtab ⊢
      have hw1 : wrapInt64 (0 + 1) = 1 := by decide
      rw [hw1] at hwtab
      have htab2 : Tabulates w n (markOf (slotOf hash n x :: seen)) := by
        refine hwtab.congr ?_
        intro i _
        by_cases hi : i = slotOf hash n x
        · subst hi; simp [markOf]
        · rw [Function.update_noteq hi]
          simp [markOf, hi]
      simp only [gt_iff_lt, lt_self_iff_false, ↓reduceIte]
      obtain ⟨b, hb, hbiff⟩ := ih _ _ htab2
      refine ⟨b, hb, ?_⟩
      rw [hbiff]
      simp only [List.mem_cons, List.map_cons, List.nodup_cons, List.mem_map, not_or,
        not_exists, not_and, forall_eq_or_imp]
      constructor
      · rintro ⟨h1, h2⟩
        exact ⟨⟨hmem, fun y hy => (h1 y hy).2⟩, fun y hy heq => (h1 y hy).1 heq, h2⟩
      · rintro ⟨⟨_, h1⟩, h2, h3⟩
        exact ⟨fun y hy => ⟨fun heq => h2 y hy heq, h1 y hy⟩, h3⟩

theorem IfHasCollisions_spec (hash : HashFunction) (data : List Int) {n : Nat}
    (hn : 0 < n) :
    ∃ b, IfHasCollisions hash data n = .ok b ∧
      (b = false ↔ (data.map (slotOf hash n)).Nodup) := by
  have htab : Tabulates (List.replicate n (0 : Int)) n (markOf []) :=
    (tabulates_replicate n 0).congr (fun i _ => by simp [markOf])
  obtain ⟨b, hb, hiff⟩ := IfHasCollisions_loop_spec hash hn data [] _ htab
  exact ⟨b, hb, by simpa using hiff⟩

theorem IfHasCollisions_zero (hash : HashFunction) (data : List Int) (hne : data ≠ []) :
    IfHasCollisions hash data 0 = .error .remainderByZero := by
  cases data with
  | nil => exact absurd rfl hne
  | cons x rest => simp [IfHasCollisions, IfHasCollisions.loop, remSize_zero]

/-! ### `HashTable.fill` and `HashTable.Contains` -/

theorem fillFun_sound (slot : Int → Nat) (data : List Int) :
    ∀ (g : Nat → Option Int) (i : Nat) (v : Int), fillFun slot data g i = some v →
      g i = some v ∨ (v ∈ data ∧ slot v = i) := by
  induction data with
  | nil => intro g i v h; exact Or.inl h
  | cons x rest ih =>
    intro g i v h
    rcases ih _ i v h with h1 | ⟨h1, h2⟩
    · by_cases hi : i = slot x
      · subst hi
        rw [Function.update_same] at h1
        cases h1
        exact Or.inr ⟨List.mem_cons_self _ _, rfl⟩
      · rw [Function.update_noteq hi] at h1
        exact Or.inl h1
    · exact Or.inr ⟨List.mem_cons_of_mem _ h1, h2⟩

theorem fillFun_of_not_mem (slot : Int → Nat) (data : List Int) :
    ∀ (g : Nat → Option Int) (i : Nat), (∀ k ∈ data, slot k ≠ i) →
      fillFun slot data g i = g i := by
  induction data with
  | nil => intro g i _; rfl
  | cons x rest ih =>
    intro g i h
    rw [fillFun, ih _ i (fun k hk => h k (List.mem_cons_of_mem _ hk)),
      Function.update_noteq (Ne.symm (h x (List.mem_cons_self _ _)))]

theorem fillFun_complete (slot : Int → Nat) (data : List Int) :
    ∀ (g : Nat → Option Int) (k : Int), k ∈ data →
      ∃ k2, k2 ∈ data ∧ slot k2 = slot k ∧ fillFun slot data g (slot k) = some k2 := by
  induction data with
  | nil => intro g k hk; cases hk
  | cons x rest ih =>
    intro g k hk
    by_cases hrest : ∃ k2 ∈ rest, slot k2 = slot k
    · obtain ⟨k2, hk2, hs⟩ := hrest
      obtain ⟨k3, hk3, hs3, hf⟩ := ih (Function.update g (slot x) (some x)) k2 hk2
      refine ⟨k3, List.mem_cons_of_mem _ hk3, hs3.trans hs, ?_⟩
      rw [fillFun, ← hs, hf]
    · push_neg at hrest
      have hkx : slot x = slot k := by
        rcases List.mem_cons.mp hk with h | h
        · rw [h]
        · exact absurd rfl (hrest k h)
      refine ⟨x, List.mem_cons_self _ _, hkx, ?_⟩
      rw [fillFun, fillFun_of_not_mem slot rest _ _ hrest, ← hkx, Function.update_same]

theorem HashTable.fill_loop_spec (hash : HashFunction) {n : Nat} (hn : 0 < n)
    (data : List Int) :
    ∀ (g : Nat → Option Int) (tbl : List (Option Int)), Tabulates tbl n g →
      ∃ w, HashTable.fill.loop hash n data tbl = .ok w ∧
        Tabulates w n (fillFun (slotOf hash n) data g) := by
  induction data with
  | nil => intro g tbl h; exact ⟨tbl, rfl, h⟩
  | cons x rest ih =>
    intro g tbl h
    obtain ⟨w, hw, hwtab⟩ := h.set_ok (slotOf_lt hash x hn) (some x)
    obtain ⟨w2, hw2, hw2tab⟩ := ih _ _ hwtab
    refine ⟨w2, ?_, hw2tab⟩
    rw [HashTable.fill.loop, remSize_slotOf hash x hn, ok_bind, hw, ok_bind, hw2]

theorem HashTable.fill_spec (hash : HashFunction) (data : List Int) {n : Nat}
    (hn : 0 < n) :
    ∃ t, HashTable.fill hash data n = .ok t ∧ t.hash_ = hash ∧
      Tabulates t.table_ n (fillFun (slotOf hash n) data (fun _ => none)) := by
  obtain ⟨w, hw, hwtab⟩ :=
    HashTable.fill_loop_spec hash hn data _ _ (tabulates_replicate n none)
  refine ⟨{ table_ := w, hash_ := hash }, ?_, rfl, hwtab⟩
  rw [HashTable.fill, hw, ok_bind]

theorem HashTable.fill_zero (hash : HashFunction) (data : List Int) (hne : data ≠ []) :
    HashTable.fill hash data 0 = .error .remainderByZero := by
  cases data with
  | nil => exact absurd rfl hne
  | cons x rest => simp [HashTable.fill, HashTable.fill.loop, remSize_zero]

theorem HashTable.Contains_of_tabulates (t : HashTable) {n : Nat} (hn : 0 < n)
    {f : Nat → Option Int} (h : Tabulates t.table_ n f) (x : Int) :
    t.Contains x = .ok (decide (f (slotOf t.hash_ n x) = some x)) := by
  have hne : t.table_.isEmpty = false := by
    cases hl : t.table_ with
    | nil => rw [hl] at h; have := h.1; simp at this; omega
    | cons a l => rfl
  rw [HashTable.Contains, hne, h.1]
  simp only [Bool.false_eq_true, ↓reduceIte]
  rw [remSize_slotOf _ x hn, ok_bind, h.get_ok (slotOf_lt _ x hn), ok_bind]

theorem HashTable.Contains_of_empty_table (t : HashTable) (h : t.table_ = []) (x : Int) :
    t.Contains x = .ok false := by
  simp [HashTable.Contains, h]

/-! ### `GenerateHashWhilePredicate` -/

theorem HashFunction.new_draw (d : Draw) :
    HashFunction.new d.a d.b kBasicPrimeModulo =
      .ok { prime_modulo := kBasicPrimeModulo, a := d.a, b := d.b } := by
  have h := d.a_range.1
  rw [HashFunction.new, if_neg (by omega)]

theorem GenerateHashWhilePredicate_cons (data : List Int) (n : Nat) (pred : Predicate)
    (d : Draw) (rest : List Draw) :
    GenerateHashWhilePredicate data n pred (d :: rest) =
      (pred d.toHash data n >>= fun c =>
        if c then GenerateHashWhilePredicate data n pred rest else .ok (d.toHash, rest)) := by
  rw [GenerateHashWhilePredicate, HashFunction.new_draw, ok_bind]
  rfl

theorem GenerateHashWhilePredicate_accepts (data : List Int) (n : Nat) (pred : Predicate)
    (draws : List Draw) :
    ∀ (hash : HashFunction) (rest : List Draw),
      GenerateHashWhilePredicate data n pred draws = .ok (hash, rest) →
      pred hash data n = .ok false ∧ ∃ d ∈ draws, hash = d.toHash := by
  induction draws with
  | nil => intro hash rest h; simp [GenerateHashWhilePredicate] at h
  | cons d ds ih =>
    intro hash rest h
    rw [GenerateHashWhilePredicate_cons] at h
    cases hp : pred d.toHash data n with
    | error e => rw [hp] at h; simp at h
    | ok c =>
      rw [hp, ok_bind] at h
      cases c with
      | true =>
        simp only [↓reduceIte] at h
        obtain ⟨h1, d2, hd2, h2⟩ := ih hash rest h
        exact ⟨h1, d2, List.mem_cons_of_mem _ hd2, h2⟩
      | false =>
        simp only [Bool.false_eq_true, ↓reduceIte, Except.ok.injEq, Prod.mk.injEq] at h
        rw [← h.1]
        exact ⟨hp, d, List.mem_cons_self _ _, rfl⟩

/-! ### `HashTable.Initialize` -/

theorem HashTable.Initialize_nil (n : Nat) (pred : Predicate) (draws : List Draw) :
    HashTable.Initialize [] n pred draws = .ok (HashTable.default, draws) := rfl

theorem HashTable.Initialize_ok {data : List Int} {n : Nat} {pred : Predicate}
    {draws rest : List Draw} {t : HashTable}
    (h : HashTable.Initialize data n pred draws = .ok (t, rest)) :
    (data = [] ∧ t = HashTable.default) ∨
      (data ≠ [] ∧ ∃ hash, pred hash data n = .ok false ∧
        HashTable.fill hash data n = .ok t) := by
  cases data with
  | nil =>
    rw [HashTable.Initialize_nil] at h
    simp only [Except.ok.injEq, Prod.mk.injEq] at h
    exact Or.inl ⟨rfl, h.1.symm⟩
  | cons x xs =>
    right
    refine ⟨by simp, ?_⟩
    simp only [HashTable.Initialize, List.isEmpty_cons, Bool.false_eq_true, ↓reduceIte] at h
    cases hg : GenerateHashWhilePredicate (x :: xs) n pred draws with
    | error e => rw [hg] at h; simp [bind, Except.bind] at h
    | ok r =>
      obtain ⟨hash, ds⟩ := r
      rw [hg] at h
      cases hf : HashTable.fill hash (x :: xs) n with
      | error e => simp [bind, Except.bind, hf] at h
      | ok t2 =>
        simp [bind, Except.bind, hf] at h
        rw [← h.1]
        exact ⟨hash, (GenerateHashWhilePredicate_accepts _ _ _ _ _ _ hg).1, hf⟩

/-- A table built by `HashTable.Initialize` under the collision predicate
answers membership in its key list exactly. -/
theorem HashTable.Initialize_exact_table {data : List Int} {n : Nat}
    {draws rest : List Draw} {t : HashTable}
    (h : HashTable.Initialize data n top_sq_hashtable_rehash_predicate draws = .ok (t, rest))
    (x : Int) : t.Contains x = .ok (decide (x ∈ data)) := by
  rcases HashTable.Initialize_ok h with ⟨hd, ht⟩ | ⟨hne, hash, hp, hf⟩
  · subst hd; subst ht
    simp [HashTable.Contains_of_empty_table, HashTable.default]
  · have hn : 0 < n := by
      rcases Nat.eq_zero_or_pos n with h0 | h0
      · subst h0
        rw [top_sq_hashtable_rehash_predicate, IfHasCollisions_zero hash data hne] at hp
        cases hp
      · exact h0
    obtain ⟨b, hb, hiff⟩ := IfHasCollisions_spec hash data hn
    rw [top_sq_hashtable_rehash_predicate, hb] at hp
    cases hp
    have hnd := hiff.mp rfl
    obtain ⟨t2, ht2, hh, htab⟩ := HashTable.fill_spec hash data hn
    rw [ht2] at hf
    cases hf
    rw [HashTable.Contains_of_tabulates t hn htab x, hh]
    congr 1
    rw [decide_eq_decide]
    constructor
    · intro hx
      rcases fillFun_sound _ _ _ _ _ hx with h1 | h1
      · cases h1
      · exact h1.1
    · intro hx
      obtain ⟨k2, hk2, hs, hfill⟩ := fillFun_complete (slotOf hash n) data (fun _ => none) x hx
      rw [hfill, List.inj_on_of_nodup_map hnd hk2 hx hs]

/-! ### `FixedSet.Initialize` -/

theorem FixedSet.partitionLoop_spec (base : HashFunction) {n : Nat} (hn : 0 < n)
    (data : List Int) :
    ∀ (g : Nat → List Int) (bt : List (List Int)), Tabulates bt n g →
      ∃ w, FixedSet.partitionLoop base n data bt = .ok w ∧
        Tabulates w n (fun i => g i ++ bucketOf base n data i) := by
  induction data with
  | nil =>
    intro g bt h
    exact ⟨bt, rfl, h.congr (fun i _ => by simp [bucketOf])⟩
  | cons x rest ih =>
    intro g bt h
    have hlt := slotOf_lt base x hn
    obtain ⟨w, hw, hwtab⟩ := h.set_ok hlt (g (slotOf base n x) ++ [x])
    obtain ⟨w2, hw2, hw2tab⟩ := ih _ _ hwtab
    refine ⟨w2, ?_, hw2tab.congr ?_⟩
    · rw [FixedSet.partitionLoop, remSize_slotOf base x hn, ok_bind, h.get_ok hlt, ok_bind,
        hw, ok_bind, hw2]
    · intro i _
      by_cases hi : i = slotOf base n x
      · subst hi
        simp [bucketOf, List.filter_cons]
      · rw [Function.update_noteq hi]
        simp [bucketOf, List.filter_cons, Ne.symm hi]

theorem FixedSet.bucketLoop_spec (pred : Predicate) (buckets : List (List Int)) :
    ∀ (acc : List HashTable) (draws : List Draw) (tops : List HashTable) (rest : List Draw),
      FixedSet.bucketLoop pred buckets acc draws = .ok (tops, rest) →
      ∃ ts, tops = acc ++ ts ∧ List.Forall₂ (BuiltFrom pred) buckets ts := by
  induction buckets with
  | nil =>
    intro acc draws tops rest h
    simp only [FixedSet.bucketLoop, Except.ok.injEq, Prod.mk.injEq] at h
    exact ⟨[], by simp [h.1], List.Forall₂.nil⟩
  | cons b bs ih =>
    intro acc draws tops rest h
    rw [FixedSet.bucketLoop] at h
    cases hi : HashTable.Initialize b (wrapUInt64 (b.length * b.length)) pred draws with
    | error e => rw [hi] at h; simp at h
    | ok r =>
      obtain ⟨t, ds⟩ := r
      rw [hi, ok_bind] at h
      obtain ⟨ts, hts, hall⟩ := ih _ _ _ _ h
      exact ⟨t :: ts, by simp [hts], List.Forall₂.cons ⟨draws, ds, hi⟩ hall⟩

theorem FixedSet.InitializeWith_nil (bp tp : Predicate) (draws : List Draw) :
    FixedSet.InitializeWith bp tp [] draws = .ok (FixedSet.default, draws) := rfl

/-- The shape of every completed `InitializeWith` on a non-empty key list. -/
theorem FixedSet.InitializeWith_ok {bp tp : Predicate} {keys : List Int}
    {draws rest : List Draw} {s : FixedSet} (hne : keys ≠ [])
    (h : FixedSet.InitializeWith bp tp keys draws = .ok (s, rest)) :
    bp s.base_hash_ keys keys.length = .ok false ∧
      (∃ d ∈ draws, s.base_hash_ = d.toHash) ∧
      List.Forall₂ (BuiltFrom tp)
        ((List.range keys.length).map (bucketOf s.base_hash_ keys.length keys))
        s.top_tables_ := by
  have hn : 0 < keys.length := List.length_pos.mpr hne
  have hemp : keys.isEmpty = false := by
    cases keys with
    | nil => exact absurd rfl hne
    | cons a l => rfl
  simp only [FixedSet.InitializeWith, hemp, Bool.false_eq_true, ↓reduceIte] at h
  cases hg : GenerateHashWhilePredicate keys keys.length bp draws with
  | error e => rw [hg] at h; simp at h
  | ok r =>
    obtain ⟨base, ds⟩ := r
    rw [hg, ok_bind] at h
    obtain ⟨w, hw, hwtab⟩ := FixedSet.partitionLoop_spec base hn keys _ _
      (tabulates_replicate keys.length [])
    simp only [hw, ok_bind] at h
    cases hb : FixedSet.bucketLoop tp w [] ds with
    | error e => rw [hb] at h; simp at h
    | ok r2 =>
      obtain ⟨tops, ds2⟩ := r2
      rw [hb, ok_bind] at h
      simp only [Except.ok.injEq, Prod.mk.injEq] at h
      obtain ⟨ts, hts, hall⟩ := FixedSet.bucketLoop_spec tp w [] ds tops ds2 hb
      rw [← h.1]
      obtain ⟨hacc, hd⟩ := GenerateHashWhilePredicate_accepts _ _ _ _ _ _ hg
      refine ⟨hacc, hd, ?_⟩
      have hw2 := hwtab.eq_map_range
      simp only [List.nil_append] at hw2 hts
      rw [hts, ← hw2]
      exact hall

theorem FixedSet.Contains_of_no_tables (s : FixedSet) (h : s.top_tables_ = []) (x : Int) :
    s.Contains x = .ok false := by
  simp [FixedSet.Contains, h]

/-- On a non-empty sequence of bucket tables, `FixedSet.Contains` is the
answer of the selected bucket table. -/
theorem FixedSet.Contains_eq (s : FixedSet) (hne : s.top_tables_ ≠ []) (x : Int) :
    ∃ t, s.top_tables_[slotOf s.base_hash_ s.top_tables_.length x]? = some t ∧
      s.Contains x = t.Contains x := by
  have hn : 0 < s.top_tables_.length := List.length_pos.mpr hne
  have hlt := slotOf_lt s.base_hash_ x hn
  have hemp : s.top_tables_.isEmpty = false := by
    cases hl : s.top_tables_ with
    | nil => exact absurd hl hne
    | cons a l => rfl
  refine ⟨s.top_tables_[slotOf s.base_hash_ s.top_tables_.length x],
    List.getElem?_eq_getElem hlt, ?_⟩
  simp only [FixedSet.Contains, hemp, Bool.false_eq_true, ↓reduceIte]
  rw [remSize_slotOf _ x hn, ok_bind, vecGet, List.getElem?_eq_getElem hlt]
  simp only [ok_bind]
  split
  · rename_i hte
    rw [HashTable.Contains, hte]
    rfl
  · rfl

theorem forall₂_getElem? {α β : Type} {R : α → β → Prop} {l₁ : List α} {l₂ : List β}
    (h : List.Forall₂ R l₁ l₂) {i : Nat} {a : α} {b : β}
    (ha : l₁[i]? = some a) (hb : l₂[i]? = some b) : R a b := by
  induction h generalizing i with
  | nil => simp at ha
  | cons hab _ ih =>
    cases i with
    | zero =>
      simp only [List.getElem?_cons_zero, Option.some.injEq] at ha hb
      rw [← ha, ← hb]; exact hab
    | succ j =>
      simp only [List.getElem?_cons_succ] at ha hb
      exact ih ha hb

theorem bucketOf_getElem? (hash : HashFunction) (n : Nat) (keys : List Int) {i : Nat}
    (hi : i < n) :
    ((List.range n).map (bucketOf hash n keys))[i]? = some (bucketOf hash n keys i) := by
  simp [List.getElem?_map, List.getElem?_range hi]

theorem mem_bucketOf_slotOf (hash : HashFunction) (n : Nat) (keys : List Int) (x : Int) :
    x ∈ bucketOf hash n keys (slotOf hash n x) ↔ x ∈ keys := by
  simp [bucketOf]

/-- Exactness of every completed `FixedSet.Initialize`. -/
theorem FixedSet.Initialize_exact_set {keys : List Int} {draws rest : List Draw} {s : FixedSet}
    (h : FixedSet.Initialize keys draws = .ok (s, rest)) (x : Int) :
    s.Contains x = .ok (decide (x ∈ keys)) := by
  by_cases hne : keys = []
  · subst hne
    rw [FixedSet.Initialize, FixedSet.InitializeWith_nil] at h
    simp only [Except.ok.injEq, Prod.mk.injEq] at h
    rw [← h.1]
    simp [FixedSet.Contains_of_no_tables, FixedSet.default]
  · obtain ⟨_, _, hall⟩ := FixedSet.InitializeWith_ok hne h
    have hlen : s.top_tables_.length = keys.length := by
      have := hall.length_eq
      simpa using this.symm
    have hn : 0 < keys.length := List.length_pos.mpr hne
    have htne : s.top_tables_ ≠ [] := by
      intro h0; rw [h0] at hlen; simp at hlen; omega
    obtain ⟨t, ht, hc⟩ := FixedSet.Contains_eq s htne x
    rw [hlen] at ht
    obtain ⟨d, r, hinit⟩ := forall₂_getElem? hall
      (bucketOf_getElem? s.base_hash_ keys.length keys (slotOf_lt _ x hn)) ht
    rw [hc, HashTable.Initialize_exact_table hinit x]
    congr 1
    rw [decide_eq_decide]
    exact mem_bucketOf_slotOf _ _ _ _

/-! ## The claims -/

theorem sample_run : FixedSet.Initialize [5, 7, 11] sampleDraws = .ok (sampleSet, []) := by
  rfl

/-- C1 (exactness): for every list `S` of pairwise distinct 32-bit keys, every
completed `FixedSet::Initialize(S)` and every 32-bit value `x`,
`FixedSet::Contains(x)` returns `true` if and only if `x` is an element of `S`. -/
theorem C1_exactness (S : List Int) (draws rest : List Draw) (s : FixedSet) (x : Int)
    (_hdistinct : S.Nodup) (_hkeys : ∀ k ∈ S, IsInt32 k) (_hx : IsInt32 x)
    (hinit : FixedSet.Initialize S draws = .ok (s, rest)) :
    s.Contains x = .ok (decide (x ∈ S)) :=
  FixedSet.Initialize_exact_set hinit x

theorem C1_exactness_witness :
    sampleSet.Contains 11 = .ok (decide ((11 : Int) ∈ [5, 7, 11])) ∧
      sampleSet.Contains 6 = .ok (decide ((6 : Int) ∈ [5, 7, 11])) :=
  ⟨C1_exactness [5, 7, 11] sampleDraws [] sampleSet 11 (by decide) (by decide) (by decide)
      (by rfl),
   C1_exactness [5, 7, 11] sampleDraws [] sampleSet 6 (by decide) (by decide) (by decide)
      (by rfl)⟩

/-- C2 (empty set): `FixedSet::Initialize` on the empty key list completes
without consuming a draw and the resulting set answers `false` to every query;
likewise `HashTable::Initialize` on an empty key list, for every capacity and
predicate. -/
theorem C2_empty_set (draws : List Draw) (x : Int) (table_size : Nat) (pred : Predicate) :
    (∃ s, FixedSet.Initialize [] draws = .ok (s, draws) ∧ s.Contains x = .ok false) ∧
      (∃ t, HashTable.Initialize [] table_size pred draws = .ok (t, draws) ∧
        t.Contains x = .ok false) :=
  ⟨⟨FixedSet.default, rfl, rfl⟩, ⟨HashTable.default, rfl, rfl⟩⟩

theorem wrapInt64_one : wrapInt64 (0 + 1) = 1 := by decide

theorem lin_singleton (hash : HashFunction) (v : Int) :
    lin_hashtable_rehash_predicate hash [v] 1 = .ok false := by
  simp [lin_hashtable_rehash_predicate, BucketsDistribution, BucketsDistribution.loop,
    remSize, vecGet, vecSet, Nat.mod_one, wrapInt64_one, SumOfSquares, SumOfSquares.loop]
  decide

theorem top_sq_singleton (hash : HashFunction) (v : Int) :
    top_sq_hashtable_rehash_predicate hash [v] 1 = .ok false := by
  simp [top_sq_hashtable_rehash_predicate, IfHasCollisions, IfHasCollisions.loop,
    remSize, vecGet, vecSet, Nat.mod_one, wrapInt64_one]

theorem partitionLoop_singleton (hash : HashFunction) (v : Int) :
    FixedSet.partitionLoop hash 1 [v] [[]] = .ok [[v]] := by
  simp [FixedSet.partitionLoop, remSize, vecGet, vecSet, Nat.mod_one]

theorem fill_singleton (hash : HashFunction) (v : Int) :
    HashTable.fill hash [v] 1 = .ok { table_ := [some v], hash_ := hash } := by
  simp [HashTable.fill, HashTable.fill.loop, remSize, vecSet, Nat.mod_one]

theorem HashTable.Initialize_singleton (v : Int) (c : Draw) (rest : List Draw) :
    HashTable.Initialize [v] 1 top_sq_hashtable_rehash_predicate (c :: rest) =
      .ok ({ table_ := [some v], hash_ := c.toHash }, rest) := by
  simp only [HashTable.Initialize, List.isEmpty_cons, Bool.false_eq_true, ↓reduceIte]
  rw [GenerateHashWhilePredicate_cons, top_sq_singleton, ok_bind]
  simp only [Bool.false_eq_true, ↓reduceIte, ok_bind]
  rw [fill_singleton, ok_bind]

theorem singleton_run (v : Int) (c₁ c₂ : Draw) (rest : List Draw) :
    FixedSet.Initialize [v] (c₁ :: c₂ :: rest) =
      .ok ({ top_tables_ := [{ table_ := [some v], hash_ := c₂.toHash }],
             base_hash_ := c₁.toHash }, rest) := by
  have hw : wrapUInt64 (1 * 1) = 1 := by decide
  simp only [FixedSet.Initialize, FixedSet.InitializeWith, List.isEmpty_cons,
    Bool.false_eq_true, ↓reduceIte, List.length_singleton]
  rw [GenerateHashWhilePredicate_cons, lin_singleton, ok_bind]
  simp only [Bool.false_eq_true, ↓reduceIte, ok_bind, List.replicate_one]
  rw [partitionLoop_singleton, ok_bind, FixedSet.bucketLoop]
  simp only [List.length_singleton]
  rw [hw, HashTable.Initialize_singleton, ok_bind, FixedSet.bucketLoop]
  rfl

theorem singleton_contains (v y : Int) (h₁ h₂ : HashFunction) :
    FixedSet.Contains { top_tables_ := [{ table_ := [some v], hash_ := h₂ }],
                        base_hash_ := h₁ } y = .ok (decide (y = v)) := by
  simp only [FixedSet.Contains, HashTable.Contains, remSize, vecGet, Nat.mod_one,
    List.isEmpty_cons, Bool.false_eq_true, ↓reduceIte, List.length_singleton, one_ne_zero,
    ok_bind, List.getElem?_cons_zero, Option.some.injEq]
  congr 1
  rw [decide_eq_decide]
  exact eq_comm

/-- C3 (singleton): for every key `v` and every sequence of draws `c₁, c₂, …`,
`FixedSet::Initialize([v])` accepts the first candidate at both levels (both
predicates return `false` for it), and afterwards `Contains(v)` is `true` and
`Contains(y)` is `false` for every `y ≠ v`, in particular for the values
congruent to `v` modulo the hash modulus. -/
theorem C3_singleton (v : Int) (c₁ c₂ : Draw) (rest : List Draw) :
    lin_hashtable_rehash_predicate c₁.toHash [v] 1 = .ok false ∧
    top_sq_hashtable_rehash_predicate c₂.toHash [v] 1 = .ok false ∧
    ∃ s, FixedSet.Initialize [v] (c₁ :: c₂ :: rest) = .ok (s, rest) ∧
      s.base_hash_ = c₁.toHash ∧
      s.top_tables_.map HashTable.hash_ = [c₂.toHash] ∧
      s.Contains v = .ok true ∧
      (∀ y, s.Contains y = .ok (decide (y = v))) ∧
      s.Contains (v + kBasicPrimeModulo) = .ok false ∧
      s.Contains (v - kBasicPrimeModulo) = .ok false := by
  refine ⟨lin_singleton _ v, top_sq_singleton _ v, _, singleton_run v c₁ c₂ rest, rfl, rfl,
    ?_, fun y => singleton_contains v y _ _, ?_, ?_⟩
  · rw [singleton_contains]; simp
  · rw [singleton_contains]; simp [kBasicPrimeModulo]
  · rw [singleton_contains]; simp [kBasicPrimeModulo]

theorem neg_lt_tmod (a : Int) {b : Int} (hb : 0 < b) : -b < a.tmod b := by
  rcases Int.le_total 0 a with h | h
  · have := Int.tmod_nonneg b h
    omega
  · obtain ⟨n, rfl⟩ := Int.exists_eq_neg_ofNat h
    obtain ⟨m, rfl⟩ := Int.eq_ofNat_of_zero_le hb.le
    cases n with
    | zero => simp; omega
    | succ k =>
      have hm : 0 < m := by omega
      have h1 : (-((k + 1 : Nat) : Int)).tmod (m : Int) = -(((k + 1) % m : Nat) : Int) := rfl
      rw [h1]
      have := Nat.mod_lt (k + 1) hm
      omega

theorem HashFunction.call_range (h : HashFunction) (hp : 0 < h.prime_modulo)
    (hp2 : h.prime_modulo < 9223372036854775808) (x : Int) :
    0 ≤ h.call x ∧ h.call x < h.prime_modulo := by
  have h1 := Int.tmod_lt_of_pos (wrapInt64 (wrapInt64 (h.a * x) + h.b)) hp
  have h2 := neg_lt_tmod (wrapInt64 (wrapInt64 (h.a * x) + h.b)) hp
  simp only [HashFunction.call]
  split
  · rename_i hres
    exact ⟨hres, h1⟩
  · rename_i hres
    rw [wrapInt64_of_range (by omega) (by omega)]
    omega

/-- C9 (hash range): with the fixed modulus 2,000,000,009, for every multiplier
`a`, every offset `b` and every input `x`, `operator()` returns a value `r` with
`0 ≤ r < modulus`; the intermediate `a * x + b` is computed with 64-bit
wrap-around. -/
theorem C9_hash_range (a b x : Int) :
    0 ≤ (HashFunction.mk kBasicPrimeModulo a b).call x ∧
      (HashFunction.mk kBasicPrimeModulo a b).call x < kBasicPrimeModulo :=
  HashFunction.call_range _ (show (0 : Int) < kBasicPrimeModulo by decide)
    (show kBasicPrimeModulo < 9223372036854775808 by decide) x

/-- C10: the constant `kBasicPrimeModulo = 2000000009` is not a prime number,
it is `7 * 285714287`; with the multiplier `285714287` the keys `0` and `7`,
which are not congruent modulo the constant, receive the same hash value. -/
theorem C10_modulus_not_prime :
    kBasicPrimeModulo = 7 * 285714287 ∧ ¬ Nat.Prime kBasicPrimeModulo.toNat ∧
      (HashFunction.mk kBasicPrimeModulo 285714287 0).call 0 =
        (HashFunction.mk kBasicPrimeModulo 285714287 0).call 7 := by
  refine ⟨by decide, ?_, by decide⟩
  intro hp
  have h := Nat.Prime.eq_one_or_self_of_dvd hp 7 (by decide)
  revert h
  decide

/-- C8 (`Contains` is total): in every state and for every value,
`FixedSet::Contains` and `HashTable::Contains` return a Boolean; no remainder by
zero is taken and no vector is indexed outside its bounds: the bucket index is
below the number of bucket tables and the slot index is below the length of the
table. -/
theorem C8_contains_total (s : FixedSet) (t : HashTable) (value : Int) :
    (∃ r, s.Contains value = .ok r) ∧ (∃ r, t.Contains value = .ok r) ∧
      (s.top_tables_ = [] ∨
        slotOf s.base_hash_ s.top_tables_.length value < s.top_tables_.length) ∧
      (t.table_ = [] ∨ slotOf t.hash_ t.table_.length value < t.table_.length) := by
  have ht : ∀ (t : HashTable), (∃ r, t.Contains value = .ok r) ∧
      (t.table_ = [] ∨ slotOf t.hash_ t.table_.length value < t.table_.length) := by
    intro t
    by_cases h : t.table_ = []
    · exact ⟨⟨false, HashTable.Contains_of_empty_table t h value⟩, Or.inl h⟩
    · have hn : 0 < t.table_.length := List.length_pos.mpr h
      refine ⟨⟨_, HashTable.Contains_of_tabulates t hn
        (f := fun i => t.table_.getD i none) ⟨rfl, fun i hi => ?_⟩ value⟩,
        Or.inr (slotOf_lt _ _ hn)⟩
      simp [List.getD_eq_getElem?_getD, List.getElem?_eq_getElem hi]
  refine ⟨?_, (ht t).1, ?_, (ht t).2⟩
  · by_cases h : s.top_tables_ = []
    · exact ⟨false, FixedSet.Contains_of_no_tables s h value⟩
    · obtain ⟨t2, _, hc⟩ := FixedSet.Contains_eq s h value
      rw [hc]
      exact (ht t2).1
  · by_cases h : s.top_tables_ = []
    · exact Or.inl h
    · exact Or.inr (slotOf_lt _ _ (List.length_pos.mpr h))

/-! ### Perfectness -/

theorem HashTable.Initialize_perfect {data : List Int} {n : Nat}
    {draws rest : List Draw} {t : HashTable}
    (h : HashTable.Initialize data n top_sq_hashtable_rehash_predicate draws = .ok (t, rest)) :
    PerfectFor t data ∧ (data ≠ [] → t.table_.length = n ∧ 0 < n) := by
  rcases HashTable.Initialize_ok h with ⟨hd, ht⟩ | ⟨hne, hash, hp, hf⟩
  · subst hd; subst ht
    refine ⟨⟨?_, ?_, ?_⟩, fun h0 => absurd rfl h0⟩
    · intro i j hi; simp at hi
    · intro k hk; cases hk
    · intro i v hv; simp [HashTable.default] at hv
  · have hn : 0 < n := by
      rcases Nat.eq_zero_or_pos n with h0 | h0
      · subst h0
        rw [top_sq_hashtable_rehash_predicate, IfHasCollisions_zero hash data hne] at hp
        cases hp
      · exact h0
    obtain ⟨b, hb, hiff⟩ := IfHasCollisions_spec hash data hn
    rw [top_sq_hashtable_rehash_predicate, hb] at hp
    cases hp
    have hnd := hiff.mp rfl
    obtain ⟨t2, ht2, hh, htab⟩ := HashTable.fill_spec hash data hn
    rw [ht2] at hf
    cases hf
    refine ⟨?_, fun _ => ⟨htab.1, hn⟩⟩
    rw [PerfectFor, htab.1, hh]
    refine ⟨?_, ?_, ?_⟩
    · intro i j hi hj heq
      have hi2 : i < (data.map (slotOf hash n)).length := by simpa using hi
      have hj2 : j < (data.map (slotOf hash n)).length := by simpa using hj
      have := (@List.Nodup.getElem_inj_iff _ _ hnd i hi2 j hj2).mp (by simpa using heq)
      exact this
    · intro k hk
      obtain ⟨k2, hk2, hs, hfill⟩ := fillFun_complete (slotOf hash n) data (fun _ => none) k hk
      rw [htab.2 _ (slotOf_lt hash k hn), hfill, List.inj_on_of_nodup_map hnd hk2 hk hs]
    · intro i v hv
      have hi : i < n := by
        by_contra hcon
        rw [List.getElem?_eq_none (by rw [htab.1]; omega)] at hv
        cases hv
      rw [htab.2 i hi] at hv
      simp only [Option.some.injEq] at hv
      rcases fillFun_sound _ _ _ _ _ hv with h1 | h1
      · cases h1
      · exact h1

/-- C5 (collision-freedom): every table produced by a completed
`HashTable::Initialize` with the collision predicate on a non-empty key list
and a capacity of at least one has that capacity and is perfect for its key
list (the slot map is injective on the positions of the list, every key is
stored in its own slot, every occupied slot holds one of the keys); and every
bucket table of a completed `FixedSet::Initialize` is perfect for the keys of
its bucket. -/
theorem C5_collision_freedom :
    (∀ (data : List Int) (capacity : Nat) (draws rest : List Draw) (t : HashTable),
      data ≠ [] → 1 ≤ capacity →
      HashTable.Initialize data capacity top_sq_hashtable_rehash_predicate draws =
        .ok (t, rest) →
      t.table_.length = capacity ∧ PerfectFor t data) ∧
    (∀ (keys : List Int) (draws rest : List Draw) (s : FixedSet),
      FixedSet.Initialize keys draws = .ok (s, rest) →
      s.top_tables_.length = keys.length ∧
      ∀ (i : Nat) (t : HashTable), s.top_tables_[i]? = some t →
        PerfectFor t (bucketOf s.base_hash_ keys.length keys i)) := by
  constructor
  · intro data capacity draws rest t hne _ h
    obtain ⟨hp, hlen⟩ := HashTable.Initialize_perfect h
    exact ⟨(hlen hne).1, hp⟩
  · intro keys draws rest s h
    by_cases hne : keys = []
    · subst hne
      rw [FixedSet.Initialize, FixedSet.InitializeWith_nil] at h
      simp only [Except.ok.injEq, Prod.mk.injEq] at h
      rw [← h.1]
      exact ⟨rfl, fun i t ht => by simp [FixedSet.default] at ht⟩
    · obtain ⟨_, _, hall⟩ := FixedSet.InitializeWith_ok hne h
      have hlen : s.top_tables_.length = keys.length := by
        simpa using hall.length_eq.symm
      refine ⟨hlen, fun i t ht => ?_⟩
      have hi : i < keys.length := by
        rw [← hlen]
        by_contra hcon
        rw [List.getElem?_eq_none (by omega)] at ht
        cases ht
      obtain ⟨d, r, hinit⟩ := forall₂_getElem? hall
        (bucketOf_getElem? s.base_hash_ keys.length keys hi) ht
      exact (HashTable.Initialize_perfect hinit).1

theorem C5_collision_freedom_witness :
    (([some 11, none, some 5, none] : List (Option Int)).length = 4 ∧
      PerfectFor { table_ := [some 11, none, some 5, none],
                   hash_ := { prime_modulo := 2000000009, a := 7, b := 7 } } [5, 11]) ∧
    (sampleSet.top_tables_.length = ([5, 7, 11] : List Int).length ∧
      ∀ (i : Nat) (t : HashTable), sampleSet.top_tables_[i]? = some t →
        PerfectFor t (bucketOf sampleSet.base_hash_ ([5, 7, 11] : List Int).length
          [5, 7, 11] i)) :=
  ⟨C5_collision_freedom.1 [5, 11] 4 (sampleDraws.drop 2) [] _ (by decide) (by decide) rfl,
   C5_collision_freedom.2 [5, 7, 11] sampleDraws [] sampleSet rfl⟩

/-! ### No false positives -/

theorem HashTable.fill_sound {hash : HashFunction} {data : List Int} {n : Nat}
    {t : HashTable} (h : HashTable.fill hash data n = .ok t) {v : Int}
    (hv : t.Contains v = .ok true) : v ∈ data := by
  rcases Nat.eq_zero_or_pos n with h0 | hn
  · subst h0
    cases data with
    | nil =>
      simp only [HashTable.fill, HashTable.fill.loop, List.replicate_zero, ok_bind,
        Except.ok.injEq] at h
      rw [← h, HashTable.Contains_of_empty_table _ rfl] at hv
      cases hv
    | cons x xs =>
      rw [HashTable.fill_zero hash (x :: xs) (by simp)] at h
      cases h
  · obtain ⟨t2, ht2, hh, htab⟩ := HashTable.fill_spec hash data hn
    rw [ht2] at h
    cases h
    rw [HashTable.Contains_of_tabulates t hn htab v] at hv
    simp only [Except.ok.injEq, decide_eq_true_eq] at hv
    rcases fillFun_sound _ _ _ _ _ hv with h1 | h1
    · cases h1
    · exact h1.1

theorem BuiltFrom.sound {pred : Predicate} {bucket : List Int} {t : HashTable}
    (h : BuiltFrom pred bucket t) {v : Int} (hv : t.Contains v = .ok true) : v ∈ bucket := by
  obtain ⟨draws, rest, hinit⟩ := h
  rcases HashTable.Initialize_ok hinit with ⟨_, ht⟩ | ⟨_, hash, _, hf⟩
  · subst ht
    rw [HashTable.Contains_of_empty_table _ rfl] at hv
    cases hv
  · exact HashTable.fill_sound hf hv

theorem FixedSet.InitializeWith_sound {bp tp : Predicate} {keys : List Int}
    {draws rest : List Draw} {s : FixedSet}
    (h : FixedSet.InitializeWith bp tp keys draws = .ok (s, rest)) {x : Int}
    (hx : s.Contains x = .ok true) : x ∈ keys := by
  by_cases hne : keys = []
  · subst hne
    rw [FixedSet.InitializeWith_nil] at h
    simp only [Except.ok.injEq, Prod.mk.injEq] at h
    rw [← h.1, FixedSet.Contains_of_no_tables _ rfl] at hx
    cases hx
  · obtain ⟨_, _, hall⟩ := FixedSet.InitializeWith_ok hne h
    have hlen : s.top_tables_.length = keys.length := by
      simpa using hall.length_eq.symm
    have hn : 0 < keys.length := List.length_pos.mpr hne
    have htne : s.top_tables_ ≠ [] := by
      intro h0; rw [h0] at hlen; simp at hlen; omega
    obtain ⟨t, ht, hc⟩ := FixedSet.Contains_eq s htne x
    rw [hlen] at ht
    have hb := forall₂_getElem? hall
      (bucketOf_getElem? s.base_hash_ keys.length keys (slotOf_lt _ x hn)) ht
    rw [hc] at hx
    exact (mem_bucketOf_slotOf _ _ _ _).mp (hb.sound hx)

/-- C7 (no false positives, whatever the hashes): for every key list
(duplicates allowed), every hash and every capacity of at least one, the store
loop completes and the filled table answers `Contains(v) = true` only for keys
of the list; and whatever hashes the two searches of `FixedSet::Initialize`
accept (for arbitrary predicates in place of the two rehash predicates),
`FixedSet::Contains(x) = true` implies that `x` is in the input. -/
theorem C7_no_false_positives :
    (∀ (hash : HashFunction) (data : List Int) (capacity : Nat), 1 ≤ capacity →
      ∃ t, HashTable.fill hash data capacity = .ok t ∧
        ∀ v, t.Contains v = .ok true → v ∈ data) ∧
    (∀ (base_pred top_pred : Predicate) (keys : List Int) (draws rest : List Draw)
      (s : FixedSet) (x : Int),
      FixedSet.InitializeWith base_pred top_pred keys draws = .ok (s, rest) →
      s.Contains x = .ok true → x ∈ keys) := by
  constructor
  · intro hash data capacity hcap
    obtain ⟨t, ht, _, _⟩ := HashTable.fill_spec hash data (n := capacity) (by omega)
    exact ⟨t, ht, fun v hv => HashTable.fill_sound ht hv⟩
  · intro bp tp keys draws rest s x h hx
    exact FixedSet.InitializeWith_sound h hx

theorem C7_no_false_positives_witness :
    (∃ t, HashTable.fill { prime_modulo := 2000000009, a := 2, b := 5 } [5, 11, 5] 4 = .ok t ∧
        ∀ v, t.Contains v = .ok true → v ∈ ([5, 11, 5] : List Int)) ∧
      (11 : Int) ∈ ([5, 7, 11] : List Int) :=
  ⟨C7_no_false_positives.1 _ [5, 11, 5] 4 (by decide),
   C7_no_false_positives.2 acceptAll acceptAll [5, 7, 11] sampleDraws
     (sampleDraws.drop 3) overwrittenSet 11 rfl rfl⟩

/-! ### `BucketsDistribution` and order independence -/

theorem wrapInt64_succ (z : Int) : wrapInt64 (wrapInt64 z + 1) = wrapInt64 (z + 1) := by
  unfold wrapInt64
  omega

theorem BucketsDistribution_loop_spec (hash : HashFunction) {n : Nat} (hn : 0 < n)
    (data : List Int) :
    ∀ (g : Nat → Int) (tbl : List Int), Tabulates tbl n (fun i => wrapInt64 (g i)) →
      ∃ w, BucketsDistribution.loop hash n data tbl = .ok w ∧
        Tabulates w n (fun i => wrapInt64 (g i + ((bucketOf hash n data i).length : Int))) := by
  induction data with
  | nil =>
    intro g tbl h
    exact ⟨tbl, rfl, h.congr (fun i _ => by simp [bucketOf])⟩
  | cons x rest ih =>
    intro g tbl h
    have hlt := slotOf_lt hash x hn
    obtain ⟨w, hw, hwtab⟩ := h.set_ok hlt (wrapInt64 (wrapInt64 (g (slotOf hash n x)) + 1))
    have hwtab2 : Tabulates w n
        (fun i => wrapInt64 (Function.update g (slotOf hash n x) (g (slotOf hash n x) + 1) i)) := by
      refine hwtab.congr (fun i _ => ?_)
      by_cases hi : i = slotOf hash n x
      · subst hi
        simp only [Function.update_same]
        exact wrapInt64_succ _
      · simp only [Function.update_noteq hi]
    obtain ⟨w2, hw2, hw2tab⟩ := ih _ _ hwtab2
    refine ⟨w2, ?_, hw2tab.congr (fun i _ => ?_)⟩
    · rw [BucketsDistribution.loop, remSize_slotOf hash x hn, ok_bind, h.get_ok hlt, ok_bind,
        hw, ok_bind, hw2]
    · by_cases hi : i = slotOf hash n x
      · subst hi
        simp only [Function.update_same, bucketOf, List.filter_cons, decide_True, ↓reduceIte,
          List.length_cons, Nat.cast_add, Nat.cast_one]
        congr 1
        omega
      · simp only [Function.update_noteq hi, bucketOf, List.filter_cons, Ne.symm hi,
          decide_False, Bool.false_eq_true, ↓reduceIte]

theorem BucketsDistribution_spec (hash : HashFunction) (data : List Int) {n : Nat}
    (hn : 0 < n) :
    BucketsDistribution hash data n =
      .ok ((List.range n).map
        (fun i => wrapInt64 ((bucketOf hash n data i).length : Int))) := by
  have h0 : Tabulates (List.replicate n (0 : Int)) n (fun i => wrapInt64 ((fun _ => 0) i)) :=
    (tabulates_replicate n 0).congr (fun i _ => by
      show (0 : Int) = wrapInt64 0
      decide)
  obtain ⟨w, hw, hwtab⟩ := BucketsDistribution_loop_spec hash hn data _ _ h0
  rw [BucketsDistribution, hw, hwtab.eq_map_range]
  simp only [zero_add]

theorem BucketsDistribution_zero (hash : HashFunction) (data : List Int) (hne : data ≠ []) :
    BucketsDistribution hash data 0 = .error .remainderByZero := by
  cases data with
  | nil => exact absurd rfl hne
  | cons x rest => simp [BucketsDistribution, BucketsDistribution.loop, remSize_zero]

theorem bucketOf_perm (hash : HashFunction) (n : Nat) {S S' : List Int} (h : S.Perm S')
    (i : Nat) : (bucketOf hash n S i).Perm (bucketOf hash n S' i) :=
  h.filter _

theorem BucketsDistribution_perm (hash : HashFunction) (n : Nat) {S S' : List Int}
    (h : S.Perm S') : BucketsDistribution hash S n = BucketsDistribution hash S' n := by
  rcases Nat.eq_zero_or_pos n with h0 | hn
  · subst h0
    by_cases hS : S = []
    · subst hS
      rw [h.nil_eq]
    · have hS' : S' ≠ [] := fun h1 => hS (by subst h1; exact h.eq_nil)
      rw [BucketsDistribution_zero hash S hS, BucketsDistribution_zero hash S' hS']
  · rw [BucketsDistribution_spec hash S hn, BucketsDistribution_spec hash S' hn]
    apply congrArg Except.ok
    apply List.map_congr_left
    intro i _
    rw [(bucketOf_perm hash n h i).length_eq]

theorem lin_perm (hash : HashFunction) (n : Nat) {S S' : List Int} (h : S.Perm S') :
    lin_hashtable_rehash_predicate hash S n = lin_hashtable_rehash_predicate hash S' n := by
  simp only [lin_hashtable_rehash_predicate]
  rw [BucketsDistribution_perm hash n h, h.length_eq]

theorem IfHasCollisions_perm (hash : HashFunction) (n : Nat) {S S' : List Int}
    (h : S.Perm S') : IfHasCollisions hash S n = IfHasCollisions hash S' n := by
  rcases Nat.eq_zero_or_pos n with h0 | hn
  · subst h0
    by_cases hS : S = []
    · subst hS
      rw [h.nil_eq]
    · have hS' : S' ≠ [] := fun h1 => hS (by subst h1; exact h.eq_nil)
      rw [IfHasCollisions_zero hash S hS, IfHasCollisions_zero hash S' hS']
  · obtain ⟨b, hb, hiff⟩ := IfHasCollisions_spec hash S hn
    obtain ⟨b', hb', hiff'⟩ := IfHasCollisions_spec hash S' hn
    rw [hb, hb']
    congr 1
    have hnd : (S.map (slotOf hash n)).Nodup ↔ (S'.map (slotOf hash n)).Nodup :=
      (h.map _).nodup_iff
    have : b = false ↔ b' = false := by rw [hiff, hiff', hnd]
    cases b <;> cases b' <;> simp_all

/-- C6 (order independence): for every list `S` of pairwise distinct 32-bit
keys and every permutation `S'` of `S`, both rehash predicates return the same
result on `S` and `S'` for every hash and table size, and any completed
`FixedSet::Initialize(S)` and any completed `FixedSet::Initialize(S')` (on
possibly different draws) return the same `Contains(x)` for every `x`. -/
theorem C6_order_independence (S S' : List Int) (hperm : S.Perm S')
    (_hdistinct : S.Nodup) (_hkeys : ∀ k ∈ S, IsInt32 k) :
    (∀ (hash : HashFunction) (table_size : Nat),
      lin_hashtable_rehash_predicate hash S table_size =
        lin_hashtable_rehash_predicate hash S' table_size) ∧
    (∀ (hash : HashFunction) (table_size : Nat),
      top_sq_hashtable_rehash_predicate hash S table_size =
        top_sq_hashtable_rehash_predicate hash S' table_size) ∧
    (∀ (draws rest draws' rest' : List Draw) (s s' : FixedSet) (x : Int),
      FixedSet.Initialize S draws = .ok (s, rest) →
      FixedSet.Initialize S' draws' = .ok (s', rest') →
      s.Contains x = s'.Contains x) := by
  refine ⟨fun hash n => lin_perm hash n hperm, fun hash n => IfHasCollisions_perm hash n hperm,
    ?_⟩
  intro draws rest draws' rest' s s' x h h'
  rw [FixedSet.Initialize_exact_set h x, FixedSet.Initialize_exact_set h' x]
  congr 1
  rw [decide_eq_decide]
  exact hperm.mem_iff

theorem C6_order_independence_witness :
    sampleSet.Contains 5 = permutedSet.Contains 5 ∧
      lin_hashtable_rehash_predicate sampleSet.base_hash_ [5, 7, 11] 3 =
        lin_hashtable_rehash_predicate sampleSet.base_hash_ [11, 5, 7] 3 :=
  ⟨(C6_order_independence [5, 7, 11] [11, 5, 7] (by decide) (by decide) (by decide)).2.2
      sampleDraws [] sampleDraws.reverse [] sampleSet permutedSet 5 rfl rfl,
   (C6_order_independence [5, 7, 11] [11, 5, 7] (by decide) (by decide) (by decide)).1 _ 3⟩

/-! ### The space bound -/

theorem SumOfSquares_loop_spec (l : List Int) :
    ∀ res, res < 18446744073709551616 →
      SumOfSquares.loop l res =
        (res + (l.map (fun el => toUInt64 (wrapInt64 (el * el)))).sum) %
          18446744073709551616 := by
  induction l with
  | nil => intro res h; simp [SumOfSquares.loop]; omega
  | cons el rest ih =>
    intro res _
    have hlt : wrapUInt64 (res + toUInt64 (wrapInt64 (el * el))) < 18446744073709551616 := by
      unfold wrapUInt64; omega
    rw [SumOfSquares.loop, ih _ hlt]
    simp only [List.map_cons, List.sum_cons, wrapUInt64]
    omega

theorem toUInt64_wrapInt64_of_range {q : Int} (h0 : 0 ≤ q) (h1 : q < 18446744073709551616) :
    toUInt64 (wrapInt64 q) = q.toNat := by
  unfold toUInt64 wrapInt64
  omega

theorem square_small (k : Nat) (hk : k < 4294967296) :
    toUInt64 (wrapInt64 ((k : Int) * (k : Int))) = k * k := by
  have h1 : k * k ≤ 4294967295 * 4294967295 := Nat.mul_le_mul (by omega) (by omega)
  have h2 : ((k * k : Nat) : Int) = (k : Int) * (k : Int) := by push_cast; ring
  rw [← h2, toUInt64_wrapInt64_of_range (by omega) (by omega)]
  exact Int.toNat_natCast _

theorem sum_map_le_mul (l : List Nat) (f g : Nat → Nat) (c : Nat)
    (h : ∀ i ∈ l, f i ≤ c * g i) : (l.map f).sum ≤ c * (l.map g).sum := by
  induction l with
  | nil => simp
  | cons a l ih =>
    have h1 := h a (List.mem_cons_self _ _)
    have h2 := ih (fun i hi => h i (List.mem_cons_of_mem _ hi))
    simp only [List.map_cons, List.sum_cons, Nat.mul_add]
    omega

theorem sum_map_add_nat (l : List Nat) (f g : Nat → Nat) :
    (l.map (fun i => f i + g i)).sum = (l.map f).sum + (l.map g).sum := by
  induction l with
  | nil => simp
  | cons a l ih => simp only [List.map_cons, List.sum_cons, ih]; omega

theorem sum_indicator (a : Nat) :
    ∀ n, ((List.range n).map (fun i => if a = i then 1 else 0)).sum = if a < n then 1 else 0 := by
  intro n
  induction n with
  | zero => simp
  | succ m ih =>
    rw [List.range_succ, List.map_append, List.sum_append, ih]
    simp only [List.map_cons, List.map_nil, List.sum_cons, List.sum_nil]
    split_ifs <;> omega

theorem sum_bucket_lengths (hash : HashFunction) {n : Nat} (hn : 0 < n) (data : List Int) :
    ((List.range n).map (fun i => (bucketOf hash n data i).length)).sum = data.length := by
  induction data with
  | nil => simp [bucketOf]
  | cons x rest ih =>
    have hfun : (fun i => (bucketOf hash n (x :: rest) i).length) =
        (fun i => (if slotOf hash n x = i then 1 else 0) + (bucketOf hash n rest i).length) := by
      funext i
      by_cases hi : slotOf hash n x = i
      · simp [bucketOf, List.filter_cons, hi]; omega
      · simp [bucketOf, List.filter_cons, hi]
    rw [hfun, sum_map_add_nat, ih, sum_indicator, if_pos (slotOf_lt hash x hn)]
    simp only [List.length_cons]
    omega

theorem nodup_of_buckets (hash : HashFunction) (n : Nat) (keys : List Int)
    (h : ∀ k ∈ keys, (bucketOf hash n keys (slotOf hash n k)).Nodup) : keys.Nodup := by
  rw [List.nodup_iff_count_le_one]
  intro a
  by_cases ha : a ∈ keys
  · have h1 := List.nodup_iff_count_le_one.mp (h a ha) a
    rw [bucketOf, List.count_filter (by simp)] at h1
    exact h1
  · rw [List.count_eq_zero_of_not_mem ha]
    omega

theorem length_le_of_int32 (keys : List Int) (hnd : keys.Nodup)
    (h : ∀ k ∈ keys, IsInt32 k) : keys.length ≤ 4294967296 := by
  have hsub : keys.toFinset ⊆ Finset.Icc (-2147483648 : Int) 2147483647 := by
    intro k hk
    rw [List.mem_toFinset] at hk
    rw [Finset.mem_Icc]
    exact h k hk
  have h1 := Finset.card_le_card hsub
  rw [List.toFinset_card_of_nodup hnd, Int.card_Icc] at h1
  have h2 : ((2147483647 : Int) + 1 - (-2147483648)).toNat = 4294967296 := by decide
  omega

theorem BuiltFrom.facts {bucket : List Int} {t : HashTable}
    (h : BuiltFrom top_sq_hashtable_rehash_predicate bucket t) :
    bucket.Nodup ∧ t.table_.length = wrapUInt64 (bucket.length * bucket.length) ∧
      (bucket ≠ [] → 0 < wrapUInt64 (bucket.length * bucket.length)) := by
  obtain ⟨draws, rest, hinit⟩ := h
  rcases HashTable.Initialize_ok hinit with ⟨hd, ht⟩ | ⟨hne, hash, hp, hf⟩
  · subst hd; subst ht
    exact ⟨List.nodup_nil, by decide, fun h0 => absurd rfl h0⟩
  · have hn : 0 < wrapUInt64 (bucket.length * bucket.length) := by
      rcases Nat.eq_zero_or_pos (wrapUInt64 (bucket.length * bucket.length)) with h0 | h0
      · rw [h0, top_sq_hashtable_rehash_predicate, IfHasCollisions_zero hash bucket hne] at hp
        cases hp
      · exact h0
    obtain ⟨b, hb, hiff⟩ := IfHasCollisions_spec hash bucket hn
    rw [top_sq_hashtable_rehash_predicate, hb] at hp
    cases hp
    obtain ⟨t2, ht2, _, htab⟩ := HashTable.fill_spec hash bucket hn
    rw [ht2] at hf
    cases hf
    exact ⟨(hiff.mp rfl).of_map _, htab.1, fun _ => hn⟩

theorem forall₂_map_eq {α β γ : Type} {R : α → β → Prop} {l₁ : List α} {l₂ : List β}
    (h : List.Forall₂ R l₁ l₂) (f : α → γ) (g : β → γ)
    (hfg : ∀ a b, a ∈ l₁ → R a b → f a = g b) : l₁.map f = l₂.map g := by
  induction h with
  | nil => rfl
  | cons hab _ ih =>
    rw [List.map_cons, List.map_cons, hfg _ _ (List.mem_cons_self _ _) hab,
      ih (fun a b ha hr => hfg a b (List.mem_cons_of_mem _ ha) hr)]

theorem map_square_small (K : Nat → Nat) (l : List Nat) (hsmall : ∀ i ∈ l, K i < 4294967296) :
    (l.map (fun i => (K i : Int))).map (fun el => toUInt64 (wrapInt64 (el * el))) =
      l.map (fun i => K i * K i) := by
  induction l with
  | nil => rfl
  | cons a l ih =>
    rw [List.map_cons, List.map_cons, List.map_cons,
      ih (fun i hi => hsmall i (List.mem_cons_of_mem _ hi))]
    exact congrArg (fun z => z :: l.map (fun i => K i * K i))
      (square_small _ (hsmall a (List.mem_cons_self _ _)))

/-- The facts behind the space bound, for a completed `FixedSet.Initialize`
on a non-empty list of 32-bit keys. -/
theorem space_bound_aux {keys : List Int} {draws rest : List Draw} {s : FixedSet}
    (hne : keys ≠ []) (hkeys : ∀ k ∈ keys, IsInt32 k)
    (hinit : FixedSet.Initialize keys draws = .ok (s, rest)) :
    ((List.range keys.length).map
        (fun i => (bucketOf s.base_hash_ keys.length keys i).length *
          (bucketOf s.base_hash_ keys.length keys i).length)).sum ≤ 4 * keys.length ∧
      s.top_tables_.map (fun t => t.table_.length) =
        (List.range keys.length).map
          (fun i => (bucketOf s.base_hash_ keys.length keys i).length *
            (bucketOf s.base_hash_ keys.length keys i).length) := by
  obtain ⟨hacc, _, hall⟩ := FixedSet.InitializeWith_ok hne hinit
  have hn : 0 < keys.length := List.length_pos.mpr hne
  have hlen : s.top_tables_.length = keys.length := by
    simpa using hall.length_eq.symm
  -- every bucket was built under the collision predicate
  have hbuilt : ∀ i, i < keys.length → ∃ t, BuiltFrom top_sq_hashtable_rehash_predicate
      (bucketOf s.base_hash_ keys.length keys i) t := by
    intro i hi
    have hi2 : i < s.top_tables_.length := by omega
    exact ⟨s.top_tables_[i], forall₂_getElem? hall
      (bucketOf_getElem? s.base_hash_ keys.length keys hi) (List.getElem?_eq_getElem hi2)⟩
  have hnd : keys.Nodup := by
    apply nodup_of_buckets s.base_hash_ keys.length
    intro k _
    obtain ⟨t, ht⟩ := hbuilt _ (slotOf_lt s.base_hash_ k hn)
    exact ht.facts.1
  have hn32 := length_le_of_int32 keys hnd hkeys
  have hsmall : ∀ i, i < keys.length →
      (bucketOf s.base_hash_ keys.length keys i).length < 4294967296 := by
    intro i hi
    obtain ⟨t, ht⟩ := hbuilt i hi
    have hle : (bucketOf s.base_hash_ keys.length keys i).length ≤ keys.length :=
      List.length_filter_le _ _
    by_contra hcon
    have heq : (bucketOf s.base_hash_ keys.length keys i).length = 4294967296 := by omega
    have hb : bucketOf s.base_hash_ keys.length keys i ≠ [] := by
      intro h0; rw [h0] at heq; simp at heq
    have hpos := ht.facts.2.2 hb
    rw [heq] at hpos
    revert hpos
    decide
  have hsq : ∀ i, i < keys.length →
      wrapUInt64 ((bucketOf s.base_hash_ keys.length keys i).length *
        (bucketOf s.base_hash_ keys.length keys i).length) =
      (bucketOf s.base_hash_ keys.length keys i).length *
        (bucketOf s.base_hash_ keys.length keys i).length := by
    intro i hi
    have h1 := hsmall i hi
    have h2 : (bucketOf s.base_hash_ keys.length keys i).length *
        (bucketOf s.base_hash_ keys.length keys i).length ≤ 4294967295 * 4294967295 :=
      Nat.mul_le_mul (by omega) (by omega)
    unfold wrapUInt64
    omega
  -- the table lengths
  have hslots : s.top_tables_.map (fun t => t.table_.length) =
      (List.range keys.length).map
        (fun i => (bucketOf s.base_hash_ keys.length keys i).length *
          (bucketOf s.base_hash_ keys.length keys i).length) := by
    have h1 := forall₂_map_eq hall
      (fun b => wrapUInt64 (b.length * b.length)) (fun t => t.table_.length)
      (fun a b _ hr => hr.facts.2.1.symm)
    rw [← h1, List.map_map]
    apply List.map_congr_left
    intro i hi
    exact hsq i (List.mem_range.mp hi)
  refine ⟨?_, hslots⟩
  -- the accepted top-level hash
  have hdist : BucketsDistribution s.base_hash_ keys keys.length =
      .ok ((List.range keys.length).map
        (fun i => ((bucketOf s.base_hash_ keys.length keys i).length : Int))) := by
    rw [BucketsDistribution_spec _ _ hn]
    apply congrArg Except.ok
    apply List.map_congr_left
    intro i hi
    have := hsmall i (List.mem_range.mp hi)
    exact wrapInt64_of_range (by omega) (by omega)
  have hsum_eq := map_square_small
    (fun i => (bucketOf s.base_hash_ keys.length keys i).length) (List.range keys.length)
    (fun i hi => hsmall i (List.mem_range.mp hi))
  have hbound : ((List.range keys.length).map
      (fun i => (bucketOf s.base_hash_ keys.length keys i).length *
        (bucketOf s.base_hash_ keys.length keys i).length)).sum ≤
      4294967295 * keys.length := by
    have h1 := sum_map_le_mul (List.range keys.length)
      (fun i => (bucketOf s.base_hash_ keys.length keys i).length *
        (bucketOf s.base_hash_ keys.length keys i).length)
      (fun i => (bucketOf s.base_hash_ keys.length keys i).length) 4294967295
      (fun i hi => Nat.mul_le_mul_right _ (by
        have := hsmall i (List.mem_range.mp hi)
        omega))
    rw [sum_bucket_lengths _ hn] at h1
    exact h1
  have h4 : toUInt64 kBasicRehashConstant = 4 := by decide
  simp only [FixedSet.Initialize] at hinit
  rw [lin_hashtable_rehash_predicate, hdist, ok_bind, SumOfSquares,
    SumOfSquares_loop_spec _ 0 (by omega), hsum_eq, h4] at hacc
  simp only [Except.ok.injEq, decide_eq_false_iff_not, wrapUInt64, zero_add] at hacc
  have hmul : 4294967295 * keys.length ≤ 4294967295 * 4294967296 :=
    Nat.mul_le_mul_left _ hn32
  omega

/-- C4 (space bound): for every non-empty list of `n` 32-bit keys and every
completed `FixedSet::Initialize`, there are `n` bucket tables, the sum over the
`n` buckets of the squared bucket population is at most `4n`, and the total
number of slots of all bucket tables equals that sum, hence is at most `4n`. -/
theorem C4_space_bound (keys : List Int) (draws rest : List Draw) (s : FixedSet)
    (hne : keys ≠ []) (hkeys : ∀ k ∈ keys, IsInt32 k)
    (hinit : FixedSet.Initialize keys draws = .ok (s, rest)) :
    s.top_tables_.length = keys.length ∧
    ((List.range keys.length).map
      (fun i => (bucketOf s.base_hash_ keys.length keys i).length ^ 2)).sum
        ≤ 4 * keys.length ∧
    (s.top_tables_.map (fun t => t.table_.length)).sum =
      ((List.range keys.length).map
        (fun i => (bucketOf s.base_hash_ keys.length keys i).length ^ 2)).sum ∧
    (s.top_tables_.map (fun t => t.table_.length)).sum ≤ 4 * keys.length := by
  obtain ⟨h1, h2⟩ := space_bound_aux hne hkeys hinit
  have hlen : s.top_tables_.length = keys.length := by
    have := congrArg List.length h2
    simpa using this
  simp only [sq]
  rw [h2]
  exact ⟨hlen, h1, rfl, h1⟩

theorem C4_space_bound_witness :
    sampleSet.top_tables_.length = ([5, 7, 11] : List Int).length ∧
    ((List.range ([5, 7, 11] : List Int).length).map
      (fun i => (bucketOf sampleSet.base_hash_ ([5, 7, 11] : List Int).length
        [5, 7, 11] i).length ^ 2)).sum ≤ 4 * ([5, 7, 11] : List Int).length ∧
    (sampleSet.top_tables_.map (fun t => t.table_.length)).sum =
      ((List.range ([5, 7, 11] : List Int).length).map
        (fun i => (bucketOf sampleSet.base_hash_ ([5, 7, 11] : List Int).length
          [5, 7, 11] i).length ^ 2)).sum ∧
    (sampleSet.top_tables_.map (fun t => t.table_.length)).sum ≤
      4 * ([5, 7, 11] : List Int).length :=
  C4_space_bound [5, 7, 11] sampleDraws [] sampleSet (by decide) (by decide) rfl


/-! ### The constructor and the rejection-sampling search -/

/-- C11: constructing a `HashFunction` from `(multiplier, offset)` with the
fixed modulus fails, with the assertion, if and only if the multiplier is zero;
for every non-zero multiplier it succeeds and stores exactly the given
multiplier and offset with the fixed modulus; the default-constructed hash has
multiplier 1, offset 1 and the fixed modulus. -/
theorem C11_constructor (a b : Int) :
    (HashFunction.new a b kBasicPrimeModulo = .error .assertionFailed ↔ a = 0) ∧
    ((∃ hash, HashFunction.new a b kBasicPrimeModulo = .ok hash) ↔ a ≠ 0) ∧
    (∀ hash, HashFunction.new a b kBasicPrimeModulo = .ok hash →
      hash.a = a ∧ hash.b = b ∧ hash.prime_modulo = kBasicPrimeModulo) ∧
    HashFunction.default.a = 1 ∧ HashFunction.default.b = 1 ∧
    HashFunction.default.prime_modulo = kBasicPrimeModulo := by
  by_cases ha : a = 0
  · subst ha
    simp [HashFunction.new, HashFunction.default]
  · refine ⟨?_, ?_, ?_, rfl, rfl, rfl⟩
    · simp [HashFunction.new, ha]
    · simp [HashFunction.new, ha]
    · intro hash h
      simp only [HashFunction.new, ha, ↓reduceIte, Except.ok.injEq] at h
      rw [← h]
      exact ⟨rfl, rfl, rfl⟩

theorem C11_constructor_witness :
    (HashFunction.mk kBasicPrimeModulo 3 1).a = 3 ∧
      (HashFunction.mk kBasicPrimeModulo 3 1).b = 1 ∧
      (HashFunction.mk kBasicPrimeModulo 3 1).prime_modulo = kBasicPrimeModulo :=
  (C11_constructor 3 1).2.2.1 _ rfl

theorem GenerateHashWhilePredicate_nil (data : List Int) (n : Nat) (pred : Predicate) :
    GenerateHashWhilePredicate data n pred [] = .error .drawsExhausted := rfl

/-- If the candidates of `pre` are all rejected and `d` is accepted, the search
returns `d` and leaves the draws after it. -/
theorem GenerateHashWhilePredicate_first (data : List Int) (n : Nat) (pred : Predicate)
    (pre : List Draw) (d : Draw) (rest : List Draw)
    (hpre : ∀ c ∈ pre, pred c.toHash data n = .ok true)
    (hd : pred d.toHash data n = .ok false) :
    GenerateHashWhilePredicate data n pred (pre ++ d :: rest) = .ok (d.toHash, rest) := by
  induction pre with
  | nil =>
    rw [List.nil_append, GenerateHashWhilePredicate_cons, hd, ok_bind]
    rfl
  | cons c cs ih =>
    rw [List.cons_append, GenerateHashWhilePredicate_cons,
      hpre c (List.mem_cons_self _ _), ok_bind]
    simp only [↓reduceIte]
    exact ih (fun c' hc' => hpre c' (List.mem_cons_of_mem _ hc'))

/-- If the search returns, the returned hash is the first accepted candidate. -/
theorem GenerateHashWhilePredicate_returns (data : List Int) (n : Nat) (pred : Predicate)
    (draws : List Draw) :
    ∀ (hash : HashFunction) (rest : List Draw),
      GenerateHashWhilePredicate data n pred draws = .ok (hash, rest) →
      ∃ pre d, draws = pre ++ d :: rest ∧ hash = d.toHash ∧
        pred d.toHash data n = .ok false ∧ ∀ c ∈ pre, pred c.toHash data n = .ok true := by
  induction draws with
  | nil => intro hash rest h; simp [GenerateHashWhilePredicate] at h
  | cons d ds ih =>
    intro hash rest h
    rw [GenerateHashWhilePredicate_cons] at h
    cases hp : pred d.toHash data n with
    | error e => rw [hp] at h; simp at h
    | ok c =>
      rw [hp, ok_bind] at h
      cases c with
      | true =>
        simp only [↓reduceIte] at h
        obtain ⟨pre, d2, h1, h2, h3, h4⟩ := ih hash rest h
        refine ⟨d :: pre, d2, by rw [h1]; rfl, h2, h3, ?_⟩
        intro c hc
        rcases List.mem_cons.mp hc with hc | hc
        · rw [hc]; exact hp
        · exact h4 c hc
      | false =>
        simp only [Bool.false_eq_true, ↓reduceIte, Except.ok.injEq, Prod.mk.injEq] at h
        refine ⟨[], d, by rw [← h.2]; rfl, h.1.symm, hp, ?_⟩
        intro c hc
        cases hc

theorem GenerateHashWhilePredicate_no_assert (data : List Int) (n : Nat) (pred : Predicate)
    (hpred : ∀ hash, pred hash data n ≠ .error .assertionFailed) (draws : List Draw) :
    GenerateHashWhilePredicate data n pred draws ≠ .error .assertionFailed := by
  induction draws with
  | nil => simp [GenerateHashWhilePredicate]
  | cons d ds ih =>
    rw [GenerateHashWhilePredicate_cons]
    cases hp : pred d.toHash data n with
    | error e =>
      rw [error_bind]
      intro h
      have he : e = Fault.assertionFailed := by injection h
      exact hpred d.toHash (by rw [hp, he])
    | ok c =>
      rw [ok_bind]
      cases c with
      | true => simpa using ih
      | false => simp

/-- C16 (rejection-sampling search): if `GenerateHashWhilePredicate` returns,
it returns the first candidate of the sequence of draws on which the predicate
is false, every earlier candidate having been rejected, and leaves the later
draws untouched; conversely such a sequence of draws makes it return.  At least
one candidate is drawn (with no draw the search has not returned, whatever the
predicate says of the default hash).  Every candidate has its multiplier in
`[1, modulus - 1]` and its offset in `[0, modulus - 1]`, the constructor
succeeds on it, and the search never ends with a failed assertion unless the
predicate itself does. -/
theorem C16_rejection_sampling (data : List Int) (table_size : Nat) (pred : Predicate)
    (draws : List Draw) (hash : HashFunction) (rest : List Draw) :
    (GenerateHashWhilePredicate data table_size pred draws = .ok (hash, rest) ↔
      ∃ pre d, draws = pre ++ d :: rest ∧ hash = d.toHash ∧
        pred d.toHash data table_size = .ok false ∧
        ∀ c ∈ pre, pred c.toHash data table_size = .ok true) ∧
    GenerateHashWhilePredicate data table_size pred [] = .error .drawsExhausted ∧
    (∀ d : Draw, (1 ≤ d.a ∧ d.a ≤ kBasicPrimeModulo - 1) ∧
      (0 ≤ d.b ∧ d.b ≤ kBasicPrimeModulo - 1) ∧
      HashFunction.new d.a d.b kBasicPrimeModulo = .ok d.toHash) ∧
    ((∀ h, pred h data table_size ≠ .error .assertionFailed) →
      GenerateHashWhilePredicate data table_size pred draws ≠ .error .assertionFailed) := by
  refine ⟨⟨GenerateHashWhilePredicate_returns data table_size pred draws hash rest, ?_⟩, rfl,
    fun d => ⟨d.a_range, d.b_range, HashFunction.new_draw d⟩,
    fun hpred => GenerateHashWhilePredicate_no_assert data table_size pred hpred draws⟩
  rintro ⟨pre, d, h1, h2, h3, h4⟩
  rw [h1, h2]
  exact GenerateHashWhilePredicate_first data table_size pred pre d rest h4 h3

theorem C16_rejection_sampling_witness :
    ∃ pre d, sampleDraws.drop 2 = pre ++ d :: [] ∧
      (HashFunction.mk kBasicPrimeModulo 7 7) = d.toHash ∧
      top_sq_hashtable_rehash_predicate d.toHash [5, 11] 4 = .ok false ∧
      ∀ c ∈ pre, top_sq_hashtable_rehash_predicate c.toHash [5, 11] 4 = .ok true :=
  (C16_rejection_sampling [5, 11] 4 top_sq_hashtable_rehash_predicate (sampleDraws.drop 2)
    (HashFunction.mk kBasicPrimeModulo 7 7) []).1.mp rfl

/-! ### The collision predicate -/

theorem nodup_map_iff_positions (f : Int → Nat) (l : List Int) :
    (l.map f).Nodup ↔
      ∀ (i j : Nat) (hi : i < l.length) (hj : j < l.length), i < j → f l[i] ≠ f l[j] := by
  unfold List.Nodup
  rw [List.pairwise_map, List.pairwise_iff_getElem]

/-- The value of `IfHasCollisions` for a non-zero table size: `true` exactly
when two positions of the list have the same slot. -/
theorem IfHasCollisions_iff_positions (hash : HashFunction) (data : List Int) {m : Nat}
    (hm : 0 < m) :
    ∃ b, IfHasCollisions hash data m = .ok b ∧
      (b = true ↔ ∃ (i j : Nat) (hi : i < data.length) (hj : j < data.length),
        i < j ∧ slotOf hash m data[i] = slotOf hash m data[j]) := by
  obtain ⟨b, hb, hiff⟩ := IfHasCollisions_spec hash data hm
  refine ⟨b, hb, ?_⟩
  rw [nodup_map_iff_positions] at hiff
  constructor
  · intro hbt
    by_contra hcon
    have : b = false := hiff.mpr (fun i j hi hj hij heq => hcon ⟨i, j, hi, hj, hij, heq⟩)
    rw [this] at hbt
    cases hbt
  · rintro ⟨i, j, hi, hj, hij, heq⟩
    cases b with
    | true => rfl
    | false => exact absurd heq (hiff.mp rfl i j hi hj hij)

/-- When every candidate is rejected the search never returns. -/
theorem GenerateHashWhilePredicate_all_rejected (data : List Int) (n : Nat) (pred : Predicate)
    (hrej : ∀ d : Draw, pred d.toHash data n = .ok true) (draws : List Draw) :
    GenerateHashWhilePredicate data n pred draws = .error .drawsExhausted := by
  induction draws with
  | nil => rfl
  | cons d ds ih =>
    rw [GenerateHashWhilePredicate_cons, hrej d, ok_bind]
    simpa using ih

/-- C14 (collision predicate): for every hash, every key list and every table
size `m ≥ 1`, `IfHasCollisions` and `top_sq_hashtable_rehash_predicate` return
the same Boolean, which is `true` if and only if there are two positions
`i < j` of the list whose keys have the same slot `hash(key) % m`; it is
`false` for every list of length 0 or 1. -/
theorem C14_collision_predicate (hash : HashFunction) (data : List Int) (m : Nat)
    (hm : 1 ≤ m) :
    ∃ b, IfHasCollisions hash data m = .ok b ∧
      top_sq_hashtable_rehash_predicate hash data m = .ok b ∧
      (b = true ↔ ∃ (i j : Nat) (hi : i < data.length) (hj : j < data.length),
        i < j ∧ slotOf hash m data[i] = slotOf hash m data[j]) ∧
      (data.length ≤ 1 → b = false) := by
  obtain ⟨b, hb, hiff⟩ := IfHasCollisions_iff_positions hash data (m := m) (by omega)
  refine ⟨b, hb, hb, hiff, ?_⟩
  intro hlen
  cases b with
  | false => rfl
  | true =>
    obtain ⟨i, j, hi, hj, hij, _⟩ := hiff.mp rfl
    omega

theorem C14_collision_predicate_witness :
    ∃ b, IfHasCollisions (HashFunction.mk kBasicPrimeModulo 2 5) [5, 11] 4 = .ok b ∧
      top_sq_hashtable_rehash_predicate (HashFunction.mk kBasicPrimeModulo 2 5) [5, 11] 4 =
        .ok b ∧
      (b = true ↔ ∃ (i j : Nat) (hi : i < ([5, 11] : List Int).length)
        (hj : j < ([5, 11] : List Int).length),
        i < j ∧ slotOf (HashFunction.mk kBasicPrimeModulo 2 5) 4 ([5, 11] : List Int)[i] =
          slotOf (HashFunction.mk kBasicPrimeModulo 2 5) 4 ([5, 11] : List Int)[j]) ∧
      (([5, 11] : List Int).length ≤ 1 → b = false) :=
  C14_collision_predicate (HashFunction.mk kBasicPrimeModulo 2 5) [5, 11] 4 (by decide)

/-- C15 (duplicate keys): for every key list in which some key occurs at two
positions, every hash and every table size `≥ 1`, the collision predicate
returns `true`; hence `GenerateHashWhilePredicate` with the collision predicate
accepts no candidate on such a list, however many draws it is given. -/
theorem C15_duplicate_keys (data : List Int) (hash : HashFunction) (m : Nat)
    (i j : Nat) (hi : i < data.length) (hj : j < data.length) (hij : i < j)
    (hdup : data[i] = data[j]) (hm : 1 ≤ m) :
    IfHasCollisions hash data m = .ok true ∧
      top_sq_hashtable_rehash_predicate hash data m = .ok true ∧
      ∀ draws : List Draw,
        GenerateHashWhilePredicate data m top_sq_hashtable_rehash_predicate draws =
          .error .drawsExhausted := by
  have hall : ∀ h : HashFunction, IfHasCollisions h data m = .ok true := by
    intro h
    obtain ⟨b, hb, hiff⟩ := IfHasCollisions_iff_positions h data (m := m) (by omega)
    rw [hb, hiff.mpr ⟨i, j, hi, hj, hij, by rw [hdup]⟩]
  exact ⟨hall hash, hall hash,
    GenerateHashWhilePredicate_all_rejected data m _ (fun d => hall d.toHash)⟩

theorem C15_duplicate_keys_witness :
    IfHasCollisions (HashFunction.mk kBasicPrimeModulo 7 7) [5, 11, 5] 9 = .ok true ∧
      top_sq_hashtable_rehash_predicate (HashFunction.mk kBasicPrimeModulo 7 7) [5, 11, 5] 9 =
        .ok true ∧
      ∀ draws : List Draw,
        GenerateHashWhilePredicate [5, 11, 5] 9 top_sq_hashtable_rehash_predicate draws =
          .error .drawsExhausted :=
  C15_duplicate_keys [5, 11, 5] (HashFunction.mk kBasicPrimeModulo 7 7) 9 0 2
    (by decide) (by decide) (by decide) (by decide) (by decide)

/-! ### The hash on 32-bit keys -/

theorem tmod_fix (v p : Int) (hp : 0 < p) :
    (if v.tmod p ≥ 0 then v.tmod p else v.tmod p + p) = v % p := by
  have h1 := Int.tmod_lt_of_pos v hp
  have h2 := neg_lt_tmod v hp
  have h3 : v % p = (v.tmod p) % p := by
    conv_lhs => rw [← Int.tmod_add_tdiv v p]
    exact Int.add_mul_emod_self_left _ _ _
  rw [h3]
  split
  · rename_i h
    exact (Int.emod_eq_of_lt h h1).symm
  · rename_i h
    rw [← Int.add_emod_self, Int.emod_eq_of_lt (by omega) (by omega)]

theorem mul_key_range {a x : Int} (ha : 1 ≤ a ∧ a ≤ 2000000008) (hx : IsInt32 x) :
    -4294967313474836480 ≤ a * x ∧ a * x ≤ 4294967313474836480 := by
  obtain ⟨hx0, hx1⟩ := hx
  constructor
  · nlinarith [mul_nonneg (by omega : (0 : Int) ≤ a) (by omega : (0 : Int) ≤ x + 2147483648),
      mul_nonneg (by omega : (0 : Int) ≤ 2000000008 - a) (by omega : (0 : Int) ≤ x + 2147483648)]
  · nlinarith [mul_nonneg (by omega : (0 : Int) ≤ a) (by omega : (0 : Int) ≤ 2147483647 - x),
      mul_nonneg (by omega : (0 : Int) ≤ 2000000008 - a) (by omega : (0 : Int) ≤ 2147483647 - x)]

/-- On a hash of the family and a 32-bit key neither `a * x` nor `a * x + b`
leaves the `int64_t` range, and the result is the Euclidean residue. -/
theorem call_family (a b x : Int) (ha : 1 ≤ a ∧ a ≤ kBasicPrimeModulo - 1)
    (hb : 0 ≤ b ∧ b ≤ kBasicPrimeModulo - 1) (hx : IsInt32 x) :
    wrapInt64 (a * x) = a * x ∧ wrapInt64 (wrapInt64 (a * x) + b) = a * x + b ∧
      (HashFunction.mk kBasicPrimeModulo a b).call x = (a * x + b) % kBasicPrimeModulo := by
  have hp : kBasicPrimeModulo = 2000000009 := rfl
  rw [hp] at ha hb
  have hm := mul_key_range (by omega : 1 ≤ a ∧ a ≤ 2000000008) hx
  have h1 : wrapInt64 (a * x) = a * x := wrapInt64_of_range (by omega) (by omega)
  have h2 : wrapInt64 (a * x + b) = a * x + b := wrapInt64_of_range (by omega) (by omega)
  refine ⟨h1, by rw [h1, h2], ?_⟩
  have hfix := tmod_fix (a * x + b) kBasicPrimeModulo (by decide)
  have hlt := Int.tmod_lt_of_pos (a * x + b) (show (0 : Int) < kBasicPrimeModulo by decide)
  have hgt := neg_lt_tmod (a * x + b) (show (0 : Int) < kBasicPrimeModulo by decide)
  simp only [HashFunction.call, h1, h2]
  rw [← hfix]
  split
  · rfl
  · rw [hp] at hlt hgt ⊢
    exact wrapInt64_of_range (by omega) (by omega)

/-- C18 (no overflow on the keys the set accepts): for every multiplier `a` in
`[1, modulus - 1]`, every offset `b` in `[0, modulus - 1]` and every key `x` in
the 32-bit signed range, `a * x` and `a * x + b` lie in the `int64_t` range (the
wrap-around leaves them unchanged), and `operator()` returns exactly the
non-negative residue of `a * x + b` modulo 2,000,000,009. -/
theorem C18_no_overflow (a b x : Int) (ha : 1 ≤ a ∧ a ≤ kBasicPrimeModulo - 1)
    (hb : 0 ≤ b ∧ b ≤ kBasicPrimeModulo - 1) (hx : IsInt32 x) :
    (-9223372036854775808 ≤ a * x ∧ a * x ≤ 9223372036854775807) ∧
    (-9223372036854775808 ≤ a * x + b ∧ a * x + b ≤ 9223372036854775807) ∧
    wrapInt64 (a * x) = a * x ∧ wrapInt64 (wrapInt64 (a * x) + b) = a * x + b ∧
    (HashFunction.mk kBasicPrimeModulo a b).call x = (a * x + b) % 2000000009 ∧
    0 ≤ (HashFunction.mk kBasicPrimeModulo a b).call x ∧
    (HashFunction.mk kBasicPrimeModulo a b).call x < 2000000009 := by
  obtain ⟨h1, h2, h3⟩ := call_family a b x ha hb hx
  have hp : kBasicPrimeModulo = 2000000009 := rfl
  rw [hp] at ha hb
  have hm := mul_key_range (by omega : 1 ≤ a ∧ a ≤ 2000000008) hx
  refine ⟨by omega, by omega, h1, h2, h3, ?_, ?_⟩
  · rw [h3]; exact Int.emod_nonneg _ (by decide)
  · rw [h3]; exact Int.emod_lt_of_pos _ (by decide)

theorem C18_no_overflow_witness :
    (-9223372036854775808 ≤ (2000000008 : Int) * (-2147483648) ∧
      (2000000008 : Int) * (-2147483648) ≤ 9223372036854775807) ∧
    (-9223372036854775808 ≤ (2000000008 : Int) * (-2147483648) + 2000000008 ∧
      (2000000008 : Int) * (-2147483648) + 2000000008 ≤ 9223372036854775807) ∧
    wrapInt64 ((2000000008 : Int) * (-2147483648)) = (2000000008 : Int) * (-2147483648) ∧
    wrapInt64 (wrapInt64 ((2000000008 : Int) * (-2147483648)) + 2000000008) =
      (2000000008 : Int) * (-2147483648) + 2000000008 ∧
    (HashFunction.mk kBasicPrimeModulo 2000000008 2000000008).call (-2147483648) =
      ((2000000008 : Int) * (-2147483648) + 2000000008) % 2000000009 ∧
    0 ≤ (HashFunction.mk kBasicPrimeModulo 2000000008 2000000008).call (-2147483648) ∧
    (HashFunction.mk kBasicPrimeModulo 2000000008 2000000008).call (-2147483648) <
      2000000009 :=
  C18_no_overflow 2000000008 2000000008 (-2147483648) (by decide) (by decide) (by decide)

/-- Two 32-bit keys that are congruent modulo the modulus have the same hash
under every hash of the family. -/
theorem call_congruent (a b x y : Int) (ha : 1 ≤ a ∧ a ≤ kBasicPrimeModulo - 1)
    (hb : 0 ≤ b ∧ b ≤ kBasicPrimeModulo - 1) (hx : IsInt32 x) (hy : IsInt32 y)
    (hdvd : kBasicPrimeModulo ∣ x - y) :
    (HashFunction.mk kBasicPrimeModulo a b).call x =
      (HashFunction.mk kBasicPrimeModulo a b).call y := by
  rw [(call_family a b x ha hb hx).2.2, (call_family a b y ha hb hy).2.2]
  apply Int.emod_eq_emod_iff_emod_sub_eq_zero.mpr
  apply Int.emod_eq_zero_of_dvd
  have h : a * x + b - (a * y + b) = (x - y) * a := by ring
  rw [h]
  exact Dvd.dvd.mul_right hdvd a

/-- A list holding two different keys of equal slot collides. -/
theorem IfHasCollisions_of_mem (hash : HashFunction) (bucket : List Int) {m : Nat}
    (hm : 0 < m) {x y : Int} (hxy : x ≠ y) (hx : x ∈ bucket) (hy : y ∈ bucket)
    (hslot : slotOf hash m x = slotOf hash m y) :
    IfHasCollisions hash bucket m = .ok true := by
  obtain ⟨b, hb, hiff⟩ := IfHasCollisions_iff_positions hash bucket hm
  obtain ⟨i, hi, hxi⟩ := List.getElem_of_mem hx
  obtain ⟨j, hj, hyj⟩ := List.getElem_of_mem hy
  have hij : i ≠ j := by
    intro h
    subst h
    exact hxy (hxi.symm.trans hyj)
  rw [hb]
  congr 1
  apply hiff.mpr
  rcases Nat.lt_or_gt_of_ne hij with h | h
  · exact ⟨i, j, hi, hj, h, by rw [hxi, hyj, hslot]⟩
  · exact ⟨j, i, hj, hi, h, by rw [hxi, hyj, hslot]⟩

/-- C19 (keys congruent modulo the modulus are inseparable): for every hash of
the family and every two 32-bit keys `x`, `y` whose difference is a multiple of
2,000,000,009, `hash(x) = hash(y)`; hence both keys have the same slot for
every table size (the same bucket at the top level), and when they are
different keys the collision predicate returns `true` for that hash at every
table size `≥ 1` on every bucket containing both. -/
theorem C19_congruent_keys (a b x y : Int) (ha : 1 ≤ a ∧ a ≤ kBasicPrimeModulo - 1)
    (hb : 0 ≤ b ∧ b ≤ kBasicPrimeModulo - 1) (hx : IsInt32 x) (hy : IsInt32 y)
    (hdvd : (2000000009 : Int) ∣ x - y) :
    (HashFunction.mk kBasicPrimeModulo a b).call x =
      (HashFunction.mk kBasicPrimeModulo a b).call y ∧
    (∀ n : Nat, slotOf (HashFunction.mk kBasicPrimeModulo a b) n x =
      slotOf (HashFunction.mk kBasicPrimeModulo a b) n y) ∧
    (∀ (bucket : List Int) (m : Nat), 1 ≤ m → x ≠ y → x ∈ bucket → y ∈ bucket →
      top_sq_hashtable_rehash_predicate (HashFunction.mk kBasicPrimeModulo a b) bucket m =
        .ok true) := by
  have hcall := call_congruent a b x y ha hb hx hy hdvd
  have hslot : ∀ n : Nat, slotOf (HashFunction.mk kBasicPrimeModulo a b) n x =
      slotOf (HashFunction.mk kBasicPrimeModulo a b) n y := by
    intro n
    rw [slotOf, slotOf, hcall]
  refine ⟨hcall, hslot, ?_⟩
  intro bucket m hm hxy hxin hyin
  exact IfHasCollisions_of_mem _ bucket (by omega) hxy hxin hyin (hslot m)

theorem C19_congruent_keys_witness :
    (HashFunction.mk kBasicPrimeModulo 7 7).call 0 =
      (HashFunction.mk kBasicPrimeModulo 7 7).call 2000000009 ∧
    (∀ n : Nat, slotOf (HashFunction.mk kBasicPrimeModulo 7 7) n 0 =
      slotOf (HashFunction.mk kBasicPrimeModulo 7 7) n 2000000009) ∧
    (∀ (bucket : List Int) (m : Nat), 1 ≤ m → (0 : Int) ≠ 2000000009 → 0 ∈ bucket →
      2000000009 ∈ bucket →
      top_sq_hashtable_rehash_predicate (HashFunction.mk kBasicPrimeModulo 7 7) bucket m =
        .ok true) :=
  C19_congruent_keys 7 7 0 2000000009 (by decide) (by decide) (by decide) (by decide)
    (by decide)

/-! ### Keys that no hash of the family separates -/

/-- A completed `HashTable.Initialize` on a non-empty list comes from a
returned search. -/
theorem HashTable.Initialize_search {data : List Int} {n : Nat} {pred : Predicate}
    {draws rest : List Draw} {t : HashTable} (hne : data ≠ [])
    (h : HashTable.Initialize data n pred draws = .ok (t, rest)) :
    ∃ hash, GenerateHashWhilePredicate data n pred draws = .ok (hash, rest) ∧
      HashTable.fill hash data n = .ok t := by
  cases data with
  | nil => exact absurd rfl hne
  | cons x xs =>
    simp only [HashTable.Initialize, List.isEmpty_cons, Bool.false_eq_true, ↓reduceIte] at h
    cases hg : GenerateHashWhilePredicate (x :: xs) n pred draws with
    | error e => rw [hg] at h; simp [bind, Except.bind] at h
    | ok r =>
      obtain ⟨hash, ds⟩ := r
      rw [hg] at h
      cases hf : HashTable.fill hash (x :: xs) n with
      | error e => simp [bind, Except.bind, hf] at h
      | ok t2 =>
        simp [bind, Except.bind, hf] at h
        rw [← h.1, ← h.2]
        exact ⟨hash, rfl, hf⟩

/-- No run of `FixedSet.Initialize` completes on a key list that holds two
different 32-bit keys congruent modulo the modulus. -/
theorem FixedSet.Initialize_congruent {keys : List Int} {x y : Int} (hx : IsInt32 x)
    (hy : IsInt32 y) (hxy : x ≠ y) (hdvd : kBasicPrimeModulo ∣ x - y) (hxin : x ∈ keys)
    (hyin : y ∈ keys) (draws rest : List Draw) (s : FixedSet) :
    FixedSet.Initialize keys draws ≠ .ok (s, rest) := by
  intro h
  have hne : keys ≠ [] := List.ne_nil_of_mem hxin
  have hn : 0 < keys.length := List.length_pos.mpr hne
  obtain ⟨_, ⟨d, _, hd⟩, hall⟩ := FixedSet.InitializeWith_ok hne h
  have hlen : s.top_tables_.length = keys.length := by
    simpa using hall.length_eq.symm
  have hslot : slotOf s.base_hash_ keys.length y = slotOf s.base_hash_ keys.length x := by
    rw [hd, slotOf, slotOf]
    exact congrArg (fun z => toUInt64 z % keys.length)
      (call_congruent d.a d.b x y d.a_range d.b_range hx hy hdvd).symm
  have hlt := slotOf_lt s.base_hash_ x hn
  have hlt2 : slotOf s.base_hash_ keys.length x < s.top_tables_.length := by omega
  obtain ⟨draws2, rest2, hinit⟩ := forall₂_getElem? hall
    (bucketOf_getElem? s.base_hash_ keys.length keys hlt) (List.getElem?_eq_getElem hlt2)
  have hxb : x ∈ bucketOf s.base_hash_ keys.length keys (slotOf s.base_hash_ keys.length x) :=
    (mem_bucketOf_slotOf _ _ _ _).mpr hxin
  have hyb : y ∈ bucketOf s.base_hash_ keys.length keys (slotOf s.base_hash_ keys.length x) := by
    rw [← hslot]
    exact (mem_bucketOf_slotOf _ _ _ _).mpr hyin
  obtain ⟨hash, hsearch, _⟩ := HashTable.Initialize_search (List.ne_nil_of_mem hxb) hinit
  obtain ⟨hacc, d2, _, hd2⟩ := GenerateHashWhilePredicate_accepts _ _ _ _ _ _ hsearch
  rw [hd2, top_sq_hashtable_rehash_predicate] at hacc
  rcases Nat.eq_zero_or_pos (wrapUInt64
    ((bucketOf s.base_hash_ keys.length keys (slotOf s.base_hash_ keys.length x)).length *
      (bucketOf s.base_hash_ keys.length keys (slotOf s.base_hash_ keys.length x)).length))
    with h0 | h0
  · rw [h0, IfHasCollisions_zero _ _ (List.ne_nil_of_mem hxb)] at hacc
    cases hacc
  · have hs2 : ∀ m : Nat, slotOf d2.toHash m x = slotOf d2.toHash m y := by
      intro m
      rw [slotOf, slotOf]
      exact congrArg (fun z => toUInt64 z % m)
        (call_congruent d2.a d2.b x y d2.a_range d2.b_range hx hy hdvd)
    rw [IfHasCollisions_of_mem d2.toHash _ h0 hxy hxb hyb (hs2 _)] at hacc
    cases hacc

/-- C12: the distinct 32-bit keys `0` and `2000000009` form a bucket on which
the collision predicate at table size `2 * 2` returns `true` for every hash of
the family; the per-bucket search never returns on it, and no run of
`FixedSet.Initialize` on these two keys completes. -/
theorem C12_inseparable_bucket :
    ([0, 2000000009] : List Int).Nodup ∧ (∀ k ∈ ([0, 2000000009] : List Int), IsInt32 k) ∧
    (∀ d : Draw, top_sq_hashtable_rehash_predicate d.toHash [0, 2000000009] (2 * 2) =
      .ok true) ∧
    (∀ draws : List Draw,
      GenerateHashWhilePredicate [0, 2000000009] (2 * 2) top_sq_hashtable_rehash_predicate
        draws = .error .drawsExhausted) ∧
    (∀ (draws rest : List Draw) (s : FixedSet),
      FixedSet.Initialize [0, 2000000009] draws ≠ .ok (s, rest)) := by
  have hrej : ∀ d : Draw,
      top_sq_hashtable_rehash_predicate d.toHash [0, 2000000009] (2 * 2) = .ok true := by
    intro d
    have hslot : slotOf d.toHash (2 * 2) 0 = slotOf d.toHash (2 * 2) 2000000009 := by
      rw [slotOf, slotOf]
      exact congrArg (fun z => toUInt64 z % (2 * 2))
        (call_congruent d.a d.b 0 2000000009 d.a_range d.b_range (by decide) (by decide)
          (by decide))
    exact IfHasCollisions_of_mem d.toHash _ (by decide) (by decide) (by decide) (by decide)
      hslot
  refine ⟨by decide, by decide, hrej,
    GenerateHashWhilePredicate_all_rejected _ _ _ hrej, ?_⟩
  intro draws rest s
  exact FixedSet.Initialize_congruent (x := 0) (y := 2000000009) (by decide) (by decide)
    (by decide) (by decide) (by decide) (by decide) draws rest s

/-- C20: the multiplier `285714287` lies in `[1, modulus - 1]` and the 32-bit
keys `0` and `7` do not differ by a multiple of the modulus, yet for every
offset in `[0, modulus - 1]` both keys receive the same hash value. -/
theorem C20_residues_collide :
    (1 ≤ (285714287 : Int) ∧ (285714287 : Int) ≤ kBasicPrimeModulo - 1) ∧
    IsInt32 0 ∧ IsInt32 7 ∧ ¬ (kBasicPrimeModulo ∣ (0 - 7 : Int)) ∧
    (∀ b : Fin 2000000009,
      (HashFunction.mk kBasicPrimeModulo 285714287 (b.val : Int)).call 0 =
        (HashFunction.mk kBasicPrimeModulo 285714287 (b.val : Int)).call 7) := by
  refine ⟨by decide, by decide, by decide, by decide, ?_⟩
  intro b
  have hb : (0 : Int) ≤ (b.val : Int) ∧ (b.val : Int) ≤ kBasicPrimeModulo - 1 := by
    have := b.isLt
    have hp : kBasicPrimeModulo = 2000000009 := rfl
    rw [hp]
    omega
  rw [(call_family 285714287 (b.val : Int) 0 (by decide) hb (by decide)).2.2,
    (call_family 285714287 (b.val : Int) 7 (by decide) hb (by decide)).2.2]
  have hp : kBasicPrimeModulo = 2000000009 := rfl
  rw [hp]
  omega

/-! ### The load-balance predicate -/

theorem sum_map_cast (l : List Nat) (f : Nat → Nat) :
    (l.map (fun i => (f i : Int))).sum = ((l.map f).sum : Nat) := by
  induction l with
  | nil => rfl
  | cons a l ih =>
    rw [List.map_cons, List.map_cons, List.sum_cons, List.sum_cons, ih]
    push_cast
    rfl

/-- The distribution and the verdict of the load-balance predicate on a list
of fewer than `2 ^ 32` keys. -/
theorem lin_predicate_small (hash : HashFunction) (data : List Int) {n : Nat} (hn : 0 < n)
    (hlen : data.length < 4294967296) :
    BucketsDistribution hash data n =
      .ok ((List.range n).map (fun i => ((bucketOf hash n data i).length : Int))) ∧
    lin_hashtable_rehash_predicate hash data n =
      .ok (decide (((List.range n).map
        (fun i => (bucketOf hash n data i).length * (bucketOf hash n data i).length)).sum >
          4 * data.length)) := by
  have hsmall : ∀ i, (bucketOf hash n data i).length < 4294967296 := by
    intro i
    have hle : (bucketOf hash n data i).length ≤ data.length := List.length_filter_le _ _
    omega
  have hdist : BucketsDistribution hash data n =
      .ok ((List.range n).map (fun i => ((bucketOf hash n data i).length : Int))) := by
    rw [BucketsDistribution_spec _ _ hn]
    apply congrArg Except.ok
    apply List.map_congr_left
    intro i _
    have := hsmall i
    exact wrapInt64_of_range (by omega) (by omega)
  refine ⟨hdist, ?_⟩
  have hsum_eq := map_square_small (fun i => (bucketOf hash n data i).length) (List.range n)
    (fun i _ => hsmall i)
  have hbound : ((List.range n).map
      (fun i => (bucketOf hash n data i).length * (bucketOf hash n data i).length)).sum ≤
      4294967295 * data.length := by
    have h1 := sum_map_le_mul (List.range n)
      (fun i => (bucketOf hash n data i).length * (bucketOf hash n data i).length)
      (fun i => (bucketOf hash n data i).length) 4294967295
      (fun i _ => Nat.mul_le_mul_right _ (by
        have := hsmall i
        omega))
    rw [sum_bucket_lengths _ hn] at h1
    exact h1
  have h4 : toUInt64 kBasicRehashConstant = 4 := by decide
  have hmul : 4294967295 * data.length ≤ 4294967295 * 4294967295 :=
    Nat.mul_le_mul_left _ (by omega)
  rw [lin_hashtable_rehash_predicate, hdist, ok_bind, SumOfSquares,
    SumOfSquares_loop_spec _ 0 (by omega), hsum_eq, h4]
  apply congrArg Except.ok
  rw [decide_eq_decide]
  simp only [wrapUInt64, zero_add, gt_iff_lt]
  rw [Nat.mod_eq_of_lt (by omega), Nat.mod_eq_of_lt (by omega)]

/-- C13 (load-balance predicate), for lists of fewer than `2 ^ 32` keys: for
every hash and every table size `n ≥ 1`, `BucketsDistribution` returns a vector
of length `n` whose `i`-th entry is the number of keys with slot
`hash(key) % n = i`, the entries sum to the number of keys, and
`lin_hashtable_rehash_predicate` returns `true` if and only if the sum of the
squares of those entries is strictly greater than 4 times the number of keys. -/
theorem C13_load_balance_predicate (hash : HashFunction) (data : List Int) (n : Nat)
    (hn : 1 ≤ n) (hlen : data.length < 4294967296) :
    ∃ dist, BucketsDistribution hash data n = .ok dist ∧ dist.length = n ∧
      (∀ i, i < n → dist[i]? = some ((bucketOf hash n data i).length : Int)) ∧
      dist.sum = (data.length : Int) ∧
      lin_hashtable_rehash_predicate hash data n =
        .ok (decide (((List.range n).map
          (fun i => (bucketOf hash n data i).length ^ 2)).sum > 4 * data.length)) := by
  obtain ⟨hdist, hlin⟩ := lin_predicate_small hash data (n := n) (by omega) hlen
  refine ⟨_, hdist, by simp, ?_, ?_, ?_⟩
  · intro i hi
    simp [List.getElem?_map, List.getElem?_range hi]
  · rw [sum_map_cast, sum_bucket_lengths hash (by omega)]
  · simp only [sq]
    exact hlin

theorem C13_load_balance_predicate_witness :
    ∃ dist, BucketsDistribution identityHash [5, 7, 11] 3 = .ok dist ∧ dist.length = 3 ∧
      (∀ i, i < 3 → dist[i]? = some ((bucketOf identityHash 3 [5, 7, 11] i).length : Int)) ∧
      dist.sum = (([5, 7, 11] : List Int).length : Int) ∧
      lin_hashtable_rehash_predicate identityHash [5, 7, 11] 3 =
        .ok (decide (((List.range 3).map
          (fun i => (bucketOf identityHash 3 [5, 7, 11] i).length ^ 2)).sum >
            4 * ([5, 7, 11] : List Int).length)) :=
  C13_load_balance_predicate identityHash [5, 7, 11] 3 (by decide) (by decide)

/-! ### The wrap-around of the sum of squares -/

theorem bucketOf_append (hash : HashFunction) (n : Nat) (l₁ l₂ : List Int) (i : Nat) :
    bucketOf hash n (l₁ ++ l₂) i = bucketOf hash n l₁ i ++ bucketOf hash n l₂ i := by
  simp only [bucketOf, List.filter_append]

theorem bucketOf_replicate_length (hash : HashFunction) (n c : Nat) (k : Int) (i : Nat) :
    (bucketOf hash n (List.replicate c k) i).length = if slotOf hash n k = i then c else 0 := by
  rw [bucketOf, List.filter_replicate]
  by_cases h : slotOf hash n k = i
  · simp [h]
  · simp [h]

theorem three_blocks_lengths (c₀ c₁ c₂ i : Nat) :
    (bucketOf identityHash 3
      (List.replicate c₀ 0 ++ List.replicate c₁ 1 ++ List.replicate c₂ 2) i).length =
      (if 0 = i then c₀ else 0) + (if 1 = i then c₁ else 0) + (if 2 = i then c₂ else 0) := by
  have h0 : slotOf identityHash 3 0 = 0 := by decide
  have h1 : slotOf identityHash 3 1 = 1 := by decide
  have h2 : slotOf identityHash 3 2 = 2 := by decide
  rw [bucketOf_append, bucketOf_append, List.length_append, List.length_append,
    bucketOf_replicate_length, bucketOf_replicate_length, bucketOf_replicate_length,
    h0, h1, h2]

theorem three_blocks_distribution (c₀ c₁ c₂ : Nat) :
    BucketsDistribution identityHash
      (List.replicate c₀ 0 ++ List.replicate c₁ 1 ++ List.replicate c₂ 2) 3 =
      .ok [wrapInt64 (c₀ : Int), wrapInt64 (c₁ : Int), wrapInt64 (c₂ : Int)] := by
  rw [BucketsDistribution_spec _ _ (by decide)]
  have hr : List.range 3 = [0, 1, 2] := by decide
  rw [hr]
  simp only [List.map_cons, List.map_nil, three_blocks_lengths]
  simp

theorem hugeData_length : hugeData.length = 6076464490 := by
  rw [hugeData, List.length_append, List.length_append, List.length_replicate,
    List.length_replicate, List.length_replicate]

/-- The load-balance predicate accepts `identityHash` on `hugeData` at table
size 3, although the sum of the squared bucket populations, `2 ^ 64 + 1408484`,
exceeds four times the number of keys: the `uint64_t` sum wrapped around. -/
theorem C13_sum_wraps_around :
    (∀ i, i < 3 → (bucketOf identityHash 3 hugeData i).length =
      [3037000000, 3037000000, 2464490].getD i 0) ∧
    lin_hashtable_rehash_predicate identityHash hugeData 3 = .ok false ∧
    ((List.range 3).map (fun i => (bucketOf identityHash 3 hugeData i).length ^ 2)).sum =
      18446744073709551616 + 1408484 ∧
    ((List.range 3).map (fun i => (bucketOf identityHash 3 hugeData i).length ^ 2)).sum >
      4 * hugeData.length := by
  have hl : ∀ i, (bucketOf identityHash 3 hugeData i).length =
      (if 0 = i then 3037000000 else 0) + (if 1 = i then 3037000000 else 0) +
        (if 2 = i then 2464490 else 0) := fun i => three_blocks_lengths _ _ _ i
  have hr : List.range 3 = [0, 1, 2] := by decide
  have hsum : ((List.range 3).map
      (fun i => (bucketOf identityHash 3 hugeData i).length ^ 2)).sum =
      18446744073709551616 + 1408484 := by
    rw [hr]
    simp only [List.map_cons, List.map_nil, hl]
    decide
  refine ⟨?_, ?_, hsum, ?_⟩
  · intro i hi
    rw [hl]
    interval_cases i <;> rfl
  · have hd : BucketsDistribution identityHash hugeData 3 =
        .ok [wrapInt64 ((3037000000 : Nat) : Int), wrapInt64 ((3037000000 : Nat) : Int),
          wrapInt64 ((2464490 : Nat) : Int)] := three_blocks_distribution _ _ _
    rw [lin_hashtable_rehash_predicate, hd, ok_bind, hugeData_length]
    apply congrArg Except.ok
    decide
  · rw [hsum, hugeData_length]
    decide

/-! ### The two-level layout -/

theorem sum_indicator_const (a c : Nat) :
    ∀ n, ((List.range n).map (fun i => if a = i then c else 0)).sum = if a < n then c else 0 := by
  intro n
  induction n with
  | zero => simp
  | succ m ih =>
    rw [List.range_succ, List.map_append, List.sum_append, ih]
    simp only [List.map_cons, List.map_nil, List.sum_cons, List.sum_nil]
    split_ifs <;> omega

theorem count_bucketOf (hash : HashFunction) (n : Nat) (keys : List Int) (a : Int) (i : Nat) :
    List.count a (bucketOf hash n keys i) =
      if slotOf hash n a = i then List.count a keys else 0 := by
  by_cases h : slotOf hash n a = i
  · rw [if_pos h, bucketOf, List.count_filter (by simpa using h)]
  · rw [if_neg h]
    apply List.count_eq_zero_of_not_mem
    intro hmem
    rw [bucketOf, List.mem_filter] at hmem
    exact h (by simpa using hmem.2)

/-- The buckets, one after the other, are a permutation of the key list. -/
theorem buckets_perm (hash : HashFunction) {n : Nat} (hn : 0 < n) (keys : List Int) :
    ((List.range n).map (bucketOf hash n keys)).flatten.Perm keys := by
  rw [List.perm_iff_count]
  intro a
  rw [List.count_flatten, List.map_map]
  have hfun : (List.count a ∘ bucketOf hash n keys) =
      (fun i => if slotOf hash n a = i then List.count a keys else 0) := by
    funext i
    exact count_bucketOf hash n keys a i
  rw [hfun, sum_indicator_const, if_pos (slotOf_lt hash a hn)]

/-- The buckets built by the partition loop of a completed run. -/
theorem partitionLoop_buckets (base : HashFunction) (keys : List Int) (hne : keys ≠ []) :
    FixedSet.partitionLoop base keys.length keys (List.replicate keys.length []) =
      .ok ((List.range keys.length).map (bucketOf base keys.length keys)) := by
  obtain ⟨w, hw, hwtab⟩ := FixedSet.partitionLoop_spec base (List.length_pos.mpr hne) keys _ _
    (tabulates_replicate keys.length [])
  rw [hw, hwtab.eq_map_range]
  simp only [List.nil_append]

/-- C17 (two-level layout): for every non-empty list of `n` 32-bit keys and
every completed `FixedSet::Initialize`, exactly `n` bucket tables are stored;
the partition loop gives bucket `i` exactly the keys with
`top_hash(key) % n = i`, in input order, so that every key lies in exactly one
bucket and the buckets together are a permutation of the input; the table of a
bucket with `s` keys has exactly `s * s` slots; an empty bucket gets the empty
default table, and `HashTable::Initialize` on an empty bucket returns without
consuming a draw or calling the predicate; for a non-empty bucket the table
size handed to the collision predicate, `s * s` computed in `size_t`, is not
zero. -/
theorem C17_two_level_layout (keys : List Int) (draws rest : List Draw) (s : FixedSet)
    (hne : keys ≠ []) (hkeys : ∀ k ∈ keys, IsInt32 k)
    (hinit : FixedSet.Initialize keys draws = .ok (s, rest)) :
    s.top_tables_.length = keys.length ∧
    FixedSet.partitionLoop s.base_hash_ keys.length keys (List.replicate keys.length []) =
      .ok ((List.range keys.length).map (bucketOf s.base_hash_ keys.length keys)) ∧
    (∀ i, bucketOf s.base_hash_ keys.length keys i =
      keys.filter (fun k => decide (toUInt64 (s.base_hash_.call k) % keys.length = i))) ∧
    (∀ k ∈ keys, slotOf s.base_hash_ keys.length k < keys.length ∧
      ∀ i, k ∈ bucketOf s.base_hash_ keys.length keys i ↔
        slotOf s.base_hash_ keys.length k = i) ∧
    ((List.range keys.length).map (bucketOf s.base_hash_ keys.length keys)).flatten.Perm keys ∧
    (∀ i, i < keys.length → ∃ t, s.top_tables_[i]? = some t ∧
      t.table_.length = (bucketOf s.base_hash_ keys.length keys i).length *
        (bucketOf s.base_hash_ keys.length keys i).length ∧
      (bucketOf s.base_hash_ keys.length keys i = [] → t = HashTable.default) ∧
      (bucketOf s.base_hash_ keys.length keys i ≠ [] →
        0 < wrapUInt64 ((bucketOf s.base_hash_ keys.length keys i).length *
          (bucketOf s.base_hash_ keys.length keys i).length))) ∧
    (∀ (table_size : Nat) (pred : Predicate) (ds : List Draw),
      HashTable.Initialize [] table_size pred ds = .ok (HashTable.default, ds)) := by
  have hn : 0 < keys.length := List.length_pos.mpr hne
  obtain ⟨_, _, hall⟩ := FixedSet.InitializeWith_ok hne hinit
  obtain ⟨_, hslots⟩ := space_bound_aux hne hkeys hinit
  have hlen : s.top_tables_.length = keys.length := by
    simpa using hall.length_eq.symm
  refine ⟨hlen, partitionLoop_buckets _ keys hne, fun i => rfl, ?_,
    buckets_perm _ hn keys, ?_, fun _ _ _ => rfl⟩
  · intro k hk
    refine ⟨slotOf_lt _ k hn, fun i => ?_⟩
    rw [bucketOf, List.mem_filter]
    simp [hk]
  · intro i hi
    have hi2 : i < s.top_tables_.length := by omega
    have hb := forall₂_getElem? hall
      (bucketOf_getElem? s.base_hash_ keys.length keys hi) (List.getElem?_eq_getElem hi2)
    refine ⟨s.top_tables_[i], List.getElem?_eq_getElem hi2, ?_, ?_, hb.facts.2.2⟩
    · have h1 := congrArg (fun l => l[i]?) hslots
      simp only [List.getElem?_map, List.getElem?_eq_getElem hi2, List.getElem?_range hi,
        Option.map_some', Option.some.injEq] at h1
      exact h1
    · intro hemp
      obtain ⟨ds, rs, hinit2⟩ := hb
      rcases HashTable.Initialize_ok hinit2 with ⟨_, ht⟩ | ⟨hne2, _⟩
      · exact ht
      · exact absurd hemp hne2

theorem C17_two_level_layout_witness :
    sampleSet.top_tables_.length = ([5, 7, 11] : List Int).length ∧
    FixedSet.partitionLoop sampleSet.base_hash_ ([5, 7, 11] : List Int).length [5, 7, 11]
        (List.replicate ([5, 7, 11] : List Int).length []) =
      .ok ((List.range ([5, 7, 11] : List Int).length).map
        (bucketOf sampleSet.base_hash_ ([5, 7, 11] : List Int).length [5, 7, 11])) ∧
    (∀ i, bucketOf sampleSet.base_hash_ ([5, 7, 11] : List Int).length [5, 7, 11] i =
      ([5, 7, 11] : List Int).filter (fun k =>
        decide (toUInt64 (sampleSet.base_hash_.call k) % ([5, 7, 11] : List Int).length = i))) ∧
    (∀ k ∈ ([5, 7, 11] : List Int),
      slotOf sampleSet.base_hash_ ([5, 7, 11] : List Int).length k <
        ([5, 7, 11] : List Int).length ∧
      ∀ i, k ∈ bucketOf sampleSet.base_hash_ ([5, 7, 11] : List Int).length [5, 7, 11] i ↔
        slotOf sampleSet.base_hash_ ([5, 7, 11] : List Int).length k = i) ∧
    ((List.range ([5, 7, 11] : List Int).length).map
      (bucketOf sampleSet.base_hash_ ([5, 7, 11] : List Int).length
        [5, 7, 11])).flatten.Perm [5, 7, 11] ∧
    (∀ i, i < ([5, 7, 11] : List Int).length → ∃ t, sampleSet.top_tables_[i]? = some t ∧
      t.table_.length =
        (bucketOf sampleSet.base_hash_ ([5, 7, 11] : List Int).length [5, 7, 11] i).length *
        (bucketOf sampleSet.base_hash_ ([5, 7, 11] : List Int).length [5, 7, 11] i).length ∧
      (bucketOf sampleSet.base_hash_ ([5, 7, 11] : List Int).length [5, 7, 11] i = [] →
        t = HashTable.default) ∧
      (bucketOf sampleSet.base_hash_ ([5, 7, 11] : List Int).length [5, 7, 11] i ≠ [] →
        0 < wrapUInt64
          ((bucketOf sampleSet.base_hash_ ([5, 7, 11] : List Int).length [5, 7, 11] i).length *
          (bucketOf sampleSet.base_hash_ ([5, 7, 11] : List Int).length
            [5, 7, 11] i).length))) ∧
    (∀ (table_size : Nat) (pred : Predicate) (ds : List Draw),
      HashTable.Initialize [] table_size pred ds = .ok (HashTable.default, ds)) :=
  C17_two_level_layout [5, 7, 11] sampleDraws [] sampleSet (by decide) (by decide) rfl

end FixedSetModel
